import Mathlib

/-!
# Terrain core of COSC3000-CG-MinecraftTerrain

A shallow embedding of the numeric core of the repository:

* `include/perlin_noise.h`: the class `PerlinNoise` (permutation table, `noise`, `fade`,
  `lerp`, `grad`);
* `src/main.cpp`: `perlinNoise`, the height-map loop of `main`, `smoothTerrain` and
  `calculateSkyColor`.

Modelling conventions.

* `double` and `float` are modelled by an arbitrary linearly ordered field `α` with a floor
  function: arithmetic is exact.  Taking `α = ℚ` makes every definition evaluable, taking
  `α = ℝ` gives the analytic statements.
* `int` is modelled by `ℤ`.  Signed overflow and an out-of-range conversion from a floating
  value are undefined behaviour in C++ and are not part of the model.
* `std::vector::operator[]` is unchecked in C++; here a lookup outside the vector yields `none`,
  and so does a division by zero.  Every function that performs lookups or divisions returns an
  `Option`.
-/

/-! ## Definitions -/

/-- Turn a list of optional results into an optional list: `none` as soon as one entry is
`none`.  Used to assemble the rows of a grid whose cells may fail. -/
def optList {β : Type} : List (Option β) → Option (List β)
  | [] => some []
  | none :: _ => none
  | some a :: t => (optList t).map (fun r => a :: r)

namespace PerlinNoise

/-- Result of `p.resize(256); std::iota(p.begin(), p.end(), 0)`: the vector `0, 1, ..., 255`. -/
def iota256 : List Int := (List.range 256).map Int.ofNat

/-- Exchange of the entries at positions `i` and `j` (`std::iter_swap`), the only way in which
`std::shuffle` modifies its range.  Positions outside the vector leave it unchanged. -/
def swapAt (l : List Int) (i j : Nat) : List Int :=
  match l[i]?, l[j]? with
  | some a, some b => (l.set i b).set j a
  | _, _ => l

/-- The call `std::shuffle(p.begin(), p.end(), engine)`.  The standard library performs a sequence
of exchanges whose positions are drawn from the seeded engine; the sequence of drawn position
pairs is the parameter `swaps`, so that quantifying over `swaps` covers every seed. -/
def shuffle (swaps : List (Nat × Nat)) (p : List Int) : List Int :=
  swaps.foldl (fun q s => swapAt q s.1 s.2) p

/-- The constructor `PerlinNoise::PerlinNoise(seed)`: fill with `0..255`, shuffle, then
`p.insert(p.end(), p.begin(), p.end())` appends a copy of the 256 entries. -/
def ctor (swaps : List (Nat × Nat)) : List Int :=
  let p := shuffle swaps iota256
  p ++ p

/-- The unchecked lookup `p[i]` of `std::vector<int>`; `none` when `i` is not a valid index. -/
def idx (p : List Int) (i : Int) : Option Int :=
  if 0 ≤ i then p[i.toNat]? else none

section Field

variable {α : Type} [LinearOrderedField α] [FloorRing α]

/-- The member `fade`: `t * t * t * (t * (t * 6 - 15) + 10)`. -/
def fade (t : α) : α := t * t * t * (t * (t * 6 - 15) + 10)

/-- The member `lerp`: `a + t * (b - a)`. -/
def lerp (t a b : α) : α := a + t * (b - a)

/-- The member `grad`: the low two bits of `hash` choose the operand order and the two signs. -/
def grad (hash : Int) (x y : α) : α :=
  let h := Int.land hash 3
  let u := if h < 2 then x else y
  let v := if h < 2 then y else x
  (if Int.land h 1 = 0 then u else -u) + (if Int.land h 2 = 0 then v else -v)

/-- The member `noise(x, y)`.  The four corner hashes `aa, ab, ba, bb` are looked up through the
table twice, and each is looked up once more (`p[aa]`, ...) when handed to `grad`.  The result is
`none` as soon as one of the twelve lookups falls outside the vector. -/
def noise (p : List Int) (x y : α) : Option α :=
  let X := Int.land ⌊x⌋ 255
  let Y := Int.land ⌊y⌋ 255
  let x := x - (⌊x⌋ : α)
  let y := y - (⌊y⌋ : α)
  let u := fade x
  let v := fade y
  match idx p X, idx p (X + 1) with
  | some pX, some pX1 =>
    match idx p (pX + Y), idx p (pX + Y + 1), idx p (pX1 + Y), idx p (pX1 + Y + 1) with
    | some aa, some ab, some ba, some bb =>
      match idx p aa, idx p ba, idx p ab, idx p bb with
      | some gaa, some gba, some gab, some gbb =>
        let res := lerp v (lerp u (grad gaa x y) (grad gba (x - 1) y))
          (lerp u (grad gab x (y - 1)) (grad gbb (x - 1) (y - 1)))
        some ((res + 1) / 2)
      | _, _, _, _ => none
    | _, _, _, _ => none
  | _, _ => none

end Field

end PerlinNoise

section Field

variable {α : Type} [LinearOrderedField α] [FloorRing α]

/-- The constant `OCTAVES`. -/
def OCTAVES : Int := 4

/-- The constant `FREQUENCY = 0.02f`, as the exact decimal. -/
def FREQUENCY : α := 2 / 100

/-- The constant `PERSISTENCE = 0.5f`. -/
def PERSISTENCE : α := 5 / 10

/-- The constant `TERRAIN_SIZE`. -/
def TERRAIN_SIZE : Int := 100

/-- The constant `MAX_HEIGHT`. -/
def MAX_HEIGHT : Int := 24

/-- Loop state of `perlinNoise`: the local variables `total`, `frequency`, `amplitude` and
`maxValue`. -/
structure OctaveState (α : Type) where
  total : α
  frequency : α
  amplitude : α
  maxValue : α

/-- The body of the `for` loop of `perlinNoise`, executed `n` times from state `s`. -/
def octaveLoop (p : List Int) (persistence x y : α) : Nat → OctaveState α → Option (OctaveState α)
  | 0, s => some s
  | n + 1, s => do
    let nv ← PerlinNoise.noise p (x * s.frequency) (y * s.frequency)
    octaveLoop p persistence x y n
      { total := s.total + nv * s.amplitude
        frequency := s.frequency * 2
        amplitude := s.amplitude * persistence
        maxValue := s.maxValue + s.amplitude }

/-- The function `perlinNoise` of `main.cpp` with its three global constants made parameters:
`for (int i = 0; i < octaves; i++)` runs `octaves.toNat` times, and the result is
`total / maxValue`, which does not exist when `maxValue` is zero. -/
def perlinNoiseWith (octaves : Int) (frequency persistence : α) (p : List Int) (x y : α) :
    Option α := do
  let s ← octaveLoop p persistence x y octaves.toNat
    { total := 0, frequency := frequency, amplitude := 1, maxValue := 0 }
  if s.maxValue = 0 then none else some (s.total / s.maxValue)

/-- The function `perlinNoise(x, y, perlin)` of `main.cpp`, with the constants of the source. -/
def perlinNoise (p : List Int) (x y : α) : Option α :=
  perlinNoiseWith OCTAVES FREQUENCY PERSISTENCE p x y

/-- The conversion `static_cast<int>(v)` of a floating value: truncation toward zero. -/
def truncToInt (v : α) : Int := if 0 ≤ v then ⌊v⌋ else ⌈v⌉

/-- One cell of the height map with the size-independent parameters explicit:
`static_cast<int>(perlinNoise(i, j, perlin) * maxHeight)`. -/
def heightCell (α : Type) [LinearOrderedField α] [FloorRing α] (p : List Int) (maxHeight : Int)
    (i j : Int) : Option Int :=
  (perlinNoise p (i : α) (j : α)).map (fun nv => truncToInt (nv * (maxHeight : α)))

/-- The generation loop of `main` for a grid of side `size` and heights scaled by `maxHeight`. -/
def generateWith (α : Type) [LinearOrderedField α] [FloorRing α] (p : List Int)
    (size maxHeight : Int) : Option (List (List Int)) :=
  optList ((List.range size.toNat).map (fun (i : Nat) =>
    optList ((List.range size.toNat).map (fun (j : Nat) => heightCell α p maxHeight i j))))

/-- The generation loop of `main`: `terrainHeights` after the two nested loops. -/
def generateTerrain (α : Type) [LinearOrderedField α] [FloorRing α] (p : List Int) :
    Option (List (List Int)) :=
  generateWith α p TERRAIN_SIZE MAX_HEIGHT

end Field

/-- The unchecked access `terrainHeights[i][j]`; `none` outside the vectors. -/
def cellAt (g : List (List Int)) (i j : Int) : Option Int :=
  if 0 ≤ i ∧ 0 ≤ j then (g[i.toNat]?).bind (fun row => row[j.toNat]?) else none

/-- The body of the innermost loop of `smoothTerrain` for the offset `(x, y)`, acting on the pair
`(sum, count)`. -/
def neighborStep (g : List (List Int)) (i j x y : Int) (acc : Option (Int × Int)) :
    Option (Int × Int) :=
  acc.bind (fun sc =>
    let neighborX := i + x
    let neighborY := j + y
    if neighborX ≥ 0 ∧ neighborX < TERRAIN_SIZE ∧ neighborY ≥ 0 ∧ neighborY < TERRAIN_SIZE then
      (cellAt g neighborX neighborY).map (fun h => (sc.1 + h, sc.2 + 1))
    else some sc)

/-- The two loops `for x = -1..1`, `for y = -1..1` of `smoothTerrain` at cell `(i, j)`, started
with `sum = 0`, `count = 0`. -/
def neighborLoop (g : List (List Int)) (i j : Int) : Option (Int × Int) :=
  [-1, 0, 1].foldl (fun acc x => [-1, 0, 1].foldl (fun acc y => neighborStep g i j x y acc) acc)
    (some (0, 0))

/-- The value stored in `smoothedHeights[i][j]`: `sum / count`, the truncating quotient of
`int`. -/
def smoothCell (g : List (List Int)) (i j : Int) : Option Int :=
  (neighborLoop g i j).bind (fun sc => if sc.2 = 0 then none else some (Int.tdiv sc.1 sc.2))

/-- The function `smoothTerrain`: the grid assigned to `terrainHeights` at the end. -/
def smoothTerrain (g : List (List Int)) : Option (List (List Int)) :=
  optList ((List.range TERRAIN_SIZE.toNat).map (fun (i : Nat) =>
    optList ((List.range TERRAIN_SIZE.toNat).map (fun (j : Nat) => smoothCell g i j))))

section Sky

variable {α : Type} [LinearOrderedField α]

/-- Modelled from the spec: `glm::smoothstep(edge0, edge1, x)` is GLM library code that is not
under `src`; section 4.7 gives it as the linear remap of `x` from `[edge0, edge1]` to `[0, 1]`
followed by the weight `3t² - 2t³`.  GLM clamps the remapped value to `[0, 1]` and evaluates the
weight as `t * t * (3 - 2 * t)`; both are kept. -/
def glmSmoothstep (edge0 edge1 x : α) : α :=
  let t := min (max ((x - edge0) / (edge1 - edge0)) 0) 1
  t * t * (3 - 2 * t)

/-- Modelled from the spec: `glm::mix(a, b, t)` on `vec3` is GLM library code that is not under
`src`; section 4.7 gives it as `a + t·(b - a)` per channel, which GLM evaluates as
`a * (1 - t) + b * t`. -/
def glmMix (a b : α × α × α) (t : α) : α × α × α :=
  (a.1 * (1 - t) + b.1 * t, a.2.1 * (1 - t) + b.2.1 * t, a.2.2 * (1 - t) + b.2.2 * t)

/-- The local `nightColor(0.0f, 0.0f, 0.0f)`. -/
def nightColor : α × α × α := (0, 0, 0)

/-- The local `noonColor(0.5f, 0.6f, 0.7f)`. -/
def noonColor : α × α × α := (5 / 10, 6 / 10, 7 / 10)

/-- The local `normalizedSunY = (sunY + radius) / (2.0f * radius)`. -/
def normalizedSunY (sunY radius : α) : α := (sunY + radius) / (2 * radius)

/-- The function `calculateSkyColor(sunY, radius)`. -/
def calculateSkyColor (sunY radius : α) : α × α × α :=
  if normalizedSunY sunY radius < 45 / 100 then nightColor
  else if normalizedSunY sunY radius < 65 / 100 then
    glmMix nightColor noonColor (glmSmoothstep (45 / 100) (65 / 100) (normalizedSunY sunY radius))
  else noonColor

end Sky

/-- The invariants of the permutation table: length 512, the first 256 entries are a permutation
of `0..255`, and entry `256 + i` repeats entry `i`. -/
structure ValidTable (p : List Int) : Prop where
  length_eq : p.length = 512
  perm : (p.take 256).Perm PerlinNoise.iota256
  dup : ∀ i : Nat, i < 256 → p[256 + i]? = p[i]?

/-! ### Auxiliary definitions used to state the properties -/

/-- The entry `p[i]` as a total function (`0` where the lookup `idx p i` fails). -/
def tbl (p : List Int) (i : Int) : Int := (PerlinNoise.idx p i).getD 0

/-- Coefficient of `x` in `grad hash x y`, read off the four cases of the low two bits. -/
def gradX (hash : Int) : Int := if hash % 4 = 0 then 1 else -1

/-- Coefficient of `y` in `grad hash x y`, read off the four cases of the low two bits. -/
def gradY (hash : Int) : Int := if hash % 4 = 3 then -1 else 1

section CellFormula

variable {α : Type} [LinearOrderedField α] [FloorRing α]

/-- The value `res` of `noise` inside the cell `(X, Y)` at the fractional offsets `(fx, fy)`, with
the hash handed to `grad` for each corner given by `hash`. -/
def cellFormulaOf (hash : Int → Int → Int) (X Y : Int) (fx fy : α) : α :=
  PerlinNoise.lerp (PerlinNoise.fade fy)
    (PerlinNoise.lerp (PerlinNoise.fade fx) (PerlinNoise.grad (hash X Y) fx fy)
      (PerlinNoise.grad (hash (X + 1) Y) (fx - 1) fy))
    (PerlinNoise.lerp (PerlinNoise.fade fx) (PerlinNoise.grad (hash X (Y + 1)) fx (fy - 1))
      (PerlinNoise.grad (hash (X + 1) (Y + 1)) (fx - 1) (fy - 1)))

/-- The corner hash that the code hands to `grad`: `p[aa]` with `aa = p[p[X] + Y]`, three
lookups deep. -/
def cornerHash (p : List Int) (X Y : Int) : Int := tbl p (tbl p (tbl p X + Y))

/-- The corner hash named in section 4.2 of the specification: the double-indexed entry
`table[table[X] + Y]`. -/
def specCornerHash (p : List Int) (X Y : Int) : Int := tbl p (tbl p X + Y)

/-- The cell formula of the code: `cellFormulaOf` with the triple-indexed corner hashes. -/
def cellFormula (p : List Int) (X Y : Int) (fx fy : α) : α :=
  cellFormulaOf (cornerHash p) X Y fx fy

/-- The value of `noise` written as a total function: the cell formula at the wrapped cell and
the fractional offsets, remapped by `(res + 1) / 2`. -/
def noiseValue (p : List Int) (x y : α) : α :=
  (cellFormula p (⌊x⌋ % 256) (⌊y⌋ % 256) (x - (⌊x⌋ : α)) (y - (⌊y⌋ : α)) + 1) / 2

/-- The noise function as the specification words it (section 4.2, steps 1 to 7): the hash handed
to `grad` for each corner is the double-indexed table entry. -/
def specNoise (p : List Int) (x y : α) : α :=
  (cellFormulaOf (specCornerHash p) (⌊x⌋ % 256) (⌊y⌋ % 256) (x - (⌊x⌋ : α)) (y - (⌊y⌋ : α)) + 1) / 2

end CellFormula

/-- The entry `terrainHeights[i][j]` as a total function (`0` where `cellAt` fails). -/
def cellVal (g : List (List Int)) (i j : Int) : Int := (cellAt g i j).getD 0

/-- The nine offsets `(x, y)` visited by the loops `for x = -1..1`, `for y = -1..1`, in loop
order. -/
def offsets9 : List (Int × Int) :=
  [(-1, -1), (-1, 0), (-1, 1), (0, -1), (0, 0), (0, 1), (1, -1), (1, 0), (1, 1)]

/-- The cell `(a, b)` lies inside the `TERRAIN_SIZE × TERRAIN_SIZE` grid. -/
def inGrid (a b : Int) : Bool :=
  decide (0 ≤ a ∧ a < TERRAIN_SIZE ∧ 0 ≤ b ∧ b < TERRAIN_SIZE)

/-- The in-bounds 3×3 neighbourhood of `(i, j)` in the words of section 4.5: the heights of the
cell itself and of all existing neighbours, neighbours outside the grid being left out. -/
def neighbourhood (g : List (List Int)) (i j : Int) : List Int :=
  ((offsets9.map (fun q => (i + q.1, j + q.2))).filter (fun c => inGrid c.1 c.2)).map
    (fun c => cellVal g c.1 c.2)

/-- A sample full-size grid, the ramp `g[i][j] = i + 2 j`, used to instantiate the smoothing
properties. -/
def rampGrid : List (List Int) :=
  (List.range 100).map (fun (i : Nat) => (List.range 100).map (fun (j : Nat) => (i : Int) + 2 * j))

/-! ## The permutation table -/

namespace PerlinNoise

theorem boole_le_count (m : List Int) (k : Nat) (hk : k < m.length) (v : Int) :
    (if m[k] == v then 1 else 0) ≤ m.count v := by
  by_cases h : m[k] = v
  · subst h
    have : 0 < List.count m[k] m := List.count_pos_iff.mpr (List.getElem_mem hk)
    simp only [beq_self_eq_true, if_true]
    omega
  · simp [h]

theorem swapAt_perm (l : List Int) (i j : Nat) : (swapAt l i j).Perm l := by
  unfold swapAt
  cases hi : l[i]? with
  | none => simp
  | some a =>
    cases hj : l[j]? with
    | none => simp
    | some b =>
      simp only
      obtain ⟨hi1, hi2⟩ := List.getElem?_eq_some_iff.mp hi
      obtain ⟨hj1, hj2⟩ := List.getElem?_eq_some_iff.mp hj
      have hj1' : j < (l.set i b).length := by simpa using hj1
      rw [List.perm_iff_count]
      intro v
      rw [List.count_set _ _ _ _ hj1', List.count_set _ _ _ _ hi1]
      have h1 := boole_le_count l i hi1 v
      have h2 := boole_le_count (l.set i b) j hj1' v
      rw [List.count_set _ _ _ _ hi1] at h2
      have h3 : (l.set i b)[j] = b := by
        by_cases hij : i = j
        · subst hij; simp
        · rw [List.getElem_set_ne hij]; exact hj2
      rw [h3] at h2 ⊢
      rw [hi2] at h1 ⊢
      omega

theorem shuffle_perm (swaps : List (Nat × Nat)) (p : List Int) : (shuffle swaps p).Perm p := by
  induction swaps generalizing p with
  | nil => exact List.Perm.refl p
  | cons s t ih =>
    show (shuffle t (swapAt p s.1 s.2)).Perm p
    exact (ih _).trans (swapAt_perm p s.1 s.2)

theorem iota256_length : iota256.length = 256 := by simp [iota256]

theorem iota256_nodup : iota256.Nodup := by
  unfold iota256
  exact (List.nodup_range 256).map (fun a b h => by simpa using h)

theorem mem_iota256 (v : Int) : v ∈ iota256 ↔ 0 ≤ v ∧ v ≤ 255 := by
  unfold iota256
  simp only [List.mem_map, List.mem_range]
  constructor
  · rintro ⟨a, ha, rfl⟩
    simp only [Int.ofNat_eq_coe]
    omega
  · intro h
    exact ⟨v.toNat, by omega, by simp only [Int.ofNat_eq_coe]; omega⟩

theorem shuffle_length (swaps : List (Nat × Nat)) : (shuffle swaps iota256).length = 256 := by
  rw [(shuffle_perm swaps iota256).length_eq, iota256_length]

/-- Every valid table has exactly one occurrence of each byte value among its first 256
entries. -/
theorem count_of_perm (q : List Int) (h : q.Perm iota256) (v : Int) (h0 : 0 ≤ v)
    (h1 : v ≤ 255) : q.count v = 1 := by
  rw [h.count_eq]
  exact List.count_eq_one_of_mem iota256_nodup ((mem_iota256 v).mpr ⟨h0, h1⟩)

end PerlinNoise

/-- C1: for every sequence of exchanges performed by the seeded shuffle, the table built by the
constructor has length 512, its first 256 entries are a permutation of `0..255` in which every
value of `[0, 255]` occurs exactly once, and entry `256 + i` equals entry `i` for every
`i < 256`. -/
theorem ctor_table_invariant (swaps : List (Nat × Nat)) :
    (PerlinNoise.ctor swaps).length = 512 ∧
    ((PerlinNoise.ctor swaps).take 256).Perm PerlinNoise.iota256 ∧
    (∀ v : Int, 0 ≤ v → v ≤ 255 → ((PerlinNoise.ctor swaps).take 256).count v = 1) ∧
    (∀ i : Nat, i < 256 → ∃ v : Int, (PerlinNoise.ctor swaps)[i]? = some v ∧
      (PerlinNoise.ctor swaps)[256 + i]? = some v) := by
  have hl := PerlinNoise.shuffle_length swaps
  have htake : (PerlinNoise.ctor swaps).take 256 = PerlinNoise.shuffle swaps PerlinNoise.iota256 := by
    show (PerlinNoise.shuffle swaps PerlinNoise.iota256 ++ _).take 256 = _
    rw [← hl, List.take_left]
  refine ⟨?_, ?_, ?_, ?_⟩
  · show (PerlinNoise.shuffle swaps PerlinNoise.iota256 ++ _).length = 512
    rw [List.length_append, hl]
  · rw [htake]; exact PerlinNoise.shuffle_perm swaps _
  · intro v h0 h1
    rw [htake]
    exact PerlinNoise.count_of_perm _ (PerlinNoise.shuffle_perm swaps _) v h0 h1
  · intro i hi
    have hi' : i < (PerlinNoise.shuffle swaps PerlinNoise.iota256).length := by omega
    refine ⟨(PerlinNoise.shuffle swaps PerlinNoise.iota256)[i], ?_, ?_⟩
    · show (PerlinNoise.shuffle swaps PerlinNoise.iota256 ++ _)[i]? = _
      rw [List.getElem?_append_left hi', List.getElem?_eq_getElem hi']
    · show (PerlinNoise.shuffle swaps PerlinNoise.iota256 ++ _)[256 + i]? = _
      rw [List.getElem?_append_right (by omega), hl]
      have : 256 + i - 256 = i := by omega
      rw [this, List.getElem?_eq_getElem hi']

/-- Witness for C1: the table built from the exchanges `(0,1), (5,200)`. -/
theorem ctor_table_invariant_witness :
    (PerlinNoise.ctor [(0, 1), (5, 200)]).length = 512 ∧
    ((PerlinNoise.ctor [(0, 1), (5, 200)]).take 256).count 200 = 1 ∧
    (∃ v : Int, (PerlinNoise.ctor [(0, 1), (5, 200)])[5]? = some v ∧
      (PerlinNoise.ctor [(0, 1), (5, 200)])[256 + 5]? = some v) :=
  ⟨(ctor_table_invariant [(0, 1), (5, 200)]).1,
   (ctor_table_invariant [(0, 1), (5, 200)]).2.2.1 200 (by decide) (by decide),
   (ctor_table_invariant [(0, 1), (5, 200)]).2.2.2 5 (by decide)⟩

/-- The constructor yields a valid table. -/
theorem ctor_valid (swaps : List (Nat × Nat)) : ValidTable (PerlinNoise.ctor swaps) := by
  have hl := PerlinNoise.shuffle_length swaps
  refine ⟨?_, ?_, ?_⟩
  · show (PerlinNoise.shuffle swaps PerlinNoise.iota256 ++ _).length = 512
    rw [List.length_append, hl]
  · have : (PerlinNoise.ctor swaps).take 256 = PerlinNoise.shuffle swaps PerlinNoise.iota256 := by
      show (PerlinNoise.shuffle swaps PerlinNoise.iota256 ++ _).take 256 = _
      rw [← hl, List.take_left]
    rw [this]; exact PerlinNoise.shuffle_perm swaps _
  · intro i hi
    have hi' : i < (PerlinNoise.shuffle swaps PerlinNoise.iota256).length := by omega
    show (PerlinNoise.shuffle swaps PerlinNoise.iota256 ++ _)[256 + i]? =
      (PerlinNoise.shuffle swaps PerlinNoise.iota256 ++ _)[i]?
    rw [List.getElem?_append_right (by omega), hl, List.getElem?_append_left hi']
    have : 256 + i - 256 = i := by omega
    rw [this]

/-! ## Bit masks and table lookups -/

theorem land_255 (z : Int) : Int.land z 255 = z % 256 := by
  cases z with
  | ofNat n =>
    show ((n &&& 255 : Nat) : Int) = _
    have h := Nat.and_pow_two_sub_one_eq_mod n 8
    norm_num at h
    rw [h]; rfl
  | negSucc n =>
    show ((Nat.ldiff 255 n : Nat) : Int) = _
    have h : Nat.ldiff 255 n = 255 - n % 256 := by
      apply Nat.eq_of_testBit_eq
      intro i
      have h2 : 255 - n % 256 = 2 ^ 8 - (n % 2 ^ 8 + 1) := by omega
      rw [h2, Nat.testBit_two_pow_sub_succ (Nat.mod_lt _ (by norm_num)), Nat.testBit_ldiff,
        Nat.testBit_mod_two_pow]
      have h3 : (255 : Nat) = 2 ^ 8 - 1 := by norm_num
      rw [h3, Nat.testBit_two_pow_sub_one]
      by_cases hi : i < 8 <;> simp [hi]
    rw [h]
    have : n % 256 < 256 := Nat.mod_lt _ (by norm_num)
    rw [Int.negSucc_eq]
    omega

theorem land_3 (z : Int) : Int.land z 3 = z % 4 := by
  cases z with
  | ofNat n =>
    show ((n &&& 3 : Nat) : Int) = _
    have h := Nat.and_pow_two_sub_one_eq_mod n 2
    norm_num at h
    rw [h]; rfl
  | negSucc n =>
    show ((Nat.ldiff 3 n : Nat) : Int) = _
    have h : Nat.ldiff 3 n = 3 - n % 4 := by
      apply Nat.eq_of_testBit_eq
      intro i
      have h2 : 3 - n % 4 = 2 ^ 2 - (n % 2 ^ 2 + 1) := by omega
      rw [h2, Nat.testBit_two_pow_sub_succ (Nat.mod_lt _ (by norm_num)), Nat.testBit_ldiff,
        Nat.testBit_mod_two_pow]
      have h3 : (3 : Nat) = 2 ^ 2 - 1 := by norm_num
      rw [h3, Nat.testBit_two_pow_sub_one]
      by_cases hi : i < 2 <;> simp [hi]
    rw [h]
    have : n % 4 < 4 := Nat.mod_lt _ (by norm_num)
    rw [Int.negSucc_eq]
    omega

/-- The member `grad` is the linear form with coefficients `gradX`, `gradY`. -/
theorem grad_eq_linear {α : Type} [LinearOrderedField α] (hash : Int) (x y : α) :
    PerlinNoise.grad hash x y = (gradX hash : α) * x + (gradY hash : α) * y := by
  unfold PerlinNoise.grad gradX gradY
  simp only [land_3]
  have h0 : 0 ≤ hash % 4 := Int.emod_nonneg _ (by norm_num)
  have h1 : hash % 4 < 4 := Int.emod_lt_of_pos _ (by norm_num)
  generalize hash % 4 = h at h0 h1
  interval_cases h
  · have e1 : Int.land 0 1 = 0 := by decide
    have e2 : Int.land 0 2 = 0 := by decide
    simp [e1, e2]
  · have e1 : Int.land 1 1 = 1 := by decide
    have e2 : Int.land 1 2 = 0 := by decide
    simp [e1, e2]
  · have e1 : Int.land 2 1 = 0 := by decide
    have e2 : Int.land 2 2 = 2 := by decide
    simp [e1, e2]; ring
  · have e1 : Int.land 3 1 = 1 := by decide
    have e2 : Int.land 3 2 = 2 := by decide
    simp [e1, e2]; ring

theorem idx_eq_some_tbl (p : List Int) (hp : ValidTable p) (i : Int) (h0 : 0 ≤ i) (h1 : i < 512) :
    PerlinNoise.idx p i = some (tbl p i) := by
  have hlt : i.toNat < p.length := by rw [hp.length_eq]; omega
  unfold tbl PerlinNoise.idx
  simp [h0, List.getElem?_eq_getElem hlt]

theorem tbl_dup (p : List Int) (hp : ValidTable p) (i : Int) (h0 : 0 ≤ i) (h1 : i < 256) :
    tbl p (i + 256) = tbl p i := by
  unfold tbl PerlinNoise.idx
  have e : (i + 256).toNat = 256 + i.toNat := by omega
  have h := hp.dup i.toNat (by omega)
  simp only [h0, (by omega : 0 ≤ i + 256), if_true, e, h]

theorem tbl_low_range (p : List Int) (hp : ValidTable p) (i : Int) (h0 : 0 ≤ i) (h1 : i < 256) :
    0 ≤ tbl p i ∧ tbl p i ≤ 255 := by
  have hlt : i.toNat < p.length := by rw [hp.length_eq]; omega
  have hlt2 : i.toNat < (p.take 256).length := by
    rw [List.length_take, hp.length_eq]; omega
  have hmem : tbl p i ∈ p.take 256 := by
    have : tbl p i = (p.take 256)[i.toNat] := by
      unfold tbl PerlinNoise.idx
      simp [h0, List.getElem?_eq_getElem hlt, List.getElem_take]
    rw [this]
    exact List.getElem_mem hlt2
  exact (PerlinNoise.mem_iota256 _).mp (hp.perm.mem_iff.mp hmem)

theorem tbl_range (p : List Int) (hp : ValidTable p) (i : Int) (h0 : 0 ≤ i) (h1 : i < 512) :
    0 ≤ tbl p i ∧ tbl p i ≤ 255 := by
  by_cases h : i < 256
  · exact tbl_low_range p hp i h0 h
  · have := tbl_dup p hp (i - 256) (by omega) (by omega)
    rw [sub_add_cancel] at this
    rw [this]
    exact tbl_low_range p hp (i - 256) (by omega) (by omega)

/-! ## The noise function on a valid table -/

section NoiseLemmas

variable {α : Type} [LinearOrderedField α] [FloorRing α]

/-- On a valid table every lookup of `noise` succeeds and the result is `noiseValue`. -/
theorem noise_eq_some (p : List Int) (hp : ValidTable p) (x y : α) :
    PerlinNoise.noise p x y = some (noiseValue p x y) := by
  have hX0 : 0 ≤ ⌊x⌋ % 256 := Int.emod_nonneg _ (by norm_num)
  have hX1 : ⌊x⌋ % 256 < 256 := Int.emod_lt_of_pos _ (by norm_num)
  have hY0 : 0 ≤ ⌊y⌋ % 256 := Int.emod_nonneg _ (by norm_num)
  have hY1 : ⌊y⌋ % 256 < 256 := Int.emod_lt_of_pos _ (by norm_num)
  generalize hX : ⌊x⌋ % 256 = X at hX0 hX1
  generalize hY : ⌊y⌋ % 256 = Y at hY0 hY1
  have a0 := tbl_range p hp X hX0 (by omega)
  have a1 := tbl_range p hp (X + 1) (by omega) (by omega)
  have b00 := tbl_range p hp (tbl p X + Y) (by omega) (by omega)
  have b01 := tbl_range p hp (tbl p X + Y + 1) (by omega) (by omega)
  have b10 := tbl_range p hp (tbl p (X + 1) + Y) (by omega) (by omega)
  have b11 := tbl_range p hp (tbl p (X + 1) + Y + 1) (by omega) (by omega)
  unfold PerlinNoise.noise noiseValue cellFormula cellFormulaOf cornerHash
  simp only [land_255, hX, hY,
    idx_eq_some_tbl p hp X hX0 (by omega),
    idx_eq_some_tbl p hp (X + 1) (by omega) (by omega),
    idx_eq_some_tbl p hp (tbl p X + Y) (by omega) (by omega),
    idx_eq_some_tbl p hp (tbl p X + Y + 1) (by omega) (by omega),
    idx_eq_some_tbl p hp (tbl p (X + 1) + Y) (by omega) (by omega),
    idx_eq_some_tbl p hp (tbl p (X + 1) + Y + 1) (by omega) (by omega),
    idx_eq_some_tbl p hp (tbl p (tbl p X + Y)) (by omega) (by omega),
    idx_eq_some_tbl p hp (tbl p (tbl p X + Y + 1)) (by omega) (by omega),
    idx_eq_some_tbl p hp (tbl p (tbl p (X + 1) + Y)) (by omega) (by omega),
    idx_eq_some_tbl p hp (tbl p (tbl p (X + 1) + Y + 1)) (by omega) (by omega),
    ← add_assoc]

end NoiseLemmas

/-! ## Bounds on the fade curve and the corner gradients -/

section FieldLemmas

variable {α : Type} [LinearOrderedField α]

theorem fade_nonneg (t : α) (h0 : 0 ≤ t) : 0 ≤ PerlinNoise.fade t := by
  unfold PerlinNoise.fade
  have h : 0 ≤ t * (t * 6 - 15) + 10 := by nlinarith [sq_nonneg (4 * t - 5)]
  have h3 : 0 ≤ t * t * t := mul_nonneg (mul_nonneg h0 h0) h0
  exact mul_nonneg h3 h

theorem fade_one_sub (t : α) : PerlinNoise.fade (1 - t) = 1 - PerlinNoise.fade t := by
  unfold PerlinNoise.fade
  ring

theorem fade_le_one (t : α) (h1 : t ≤ 1) : PerlinNoise.fade t ≤ 1 := by
  have h := fade_nonneg (1 - t) (by linarith)
  rw [fade_one_sub] at h
  linarith

/-- The weight `t + fade t - 2 t fade t` that a unit offset receives after fading never exceeds
one half: `fade t - 1/2` has the sign of `t - 1/2` on `[0, 1]`. -/
theorem fade_weight_le (t : α) (h0 : 0 ≤ t) (h1 : t ≤ 1) :
    t * (1 - PerlinNoise.fade t) + (1 - t) * PerlinNoise.fade t ≤ 1 / 2 := by
  have hs : 0 ≤ t * (1 - t) := mul_nonneg h0 (by linarith)
  have hq : 0 ≤ 6 * (t * (1 - t)) ^ 2 + 2 * (t * (1 - t)) + 1 := by positivity
  have key : 1 / 2 - (t * (1 - PerlinNoise.fade t) + (1 - t) * PerlinNoise.fade t) =
      2 * (t - 1 / 2) ^ 2 * (6 * (t * (1 - t)) ^ 2 + 2 * (t * (1 - t)) + 1) := by
    unfold PerlinNoise.fade
    ring
  have : 0 ≤ 2 * (t - 1 / 2) ^ 2 * (6 * (t * (1 - t)) ^ 2 + 2 * (t * (1 - t)) + 1) := by
    positivity
  linarith

theorem gradX_abs (h : Int) : (gradX h : α) = 1 ∨ (gradX h : α) = -1 := by
  unfold gradX
  split_ifs <;> simp

theorem gradY_abs (h : Int) : (gradY h : α) = 1 ∨ (gradY h : α) = -1 := by
  unfold gradY
  split_ifs <;> simp

/-- A corner gradient is bounded by the sum of the absolute offsets. -/
theorem grad_abs_le (h : Int) (a b : α) : |PerlinNoise.grad h a b| ≤ |a| + |b| := by
  rw [grad_eq_linear]
  rcases gradX_abs (α := α) h with hx | hx <;> rcases gradY_abs (α := α) h with hy | hy <;>
    rw [hx, hy] <;>
    · refine (abs_add _ _).trans ?_
      simp [abs_mul]

/-- Bound on the interpolated value inside a cell: for offsets in `[0, 1]` the bilinear blend of
the four corner gradients stays in `[-1, 1]`, whatever the four hashes are. -/
theorem cellFormulaOf_abs_le (hash : Int → Int → Int) (X Y : Int) (fx fy : α)
    (hx0 : 0 ≤ fx) (hx1 : fx ≤ 1) (hy0 : 0 ≤ fy) (hy1 : fy ≤ 1) :
    |cellFormulaOf hash X Y fx fy| ≤ 1 := by
  have u0 := fade_nonneg fx hx0
  have u1 := fade_le_one fx hx1
  have v0 := fade_nonneg fy hy0
  have v1 := fade_le_one fy hy1
  have wx := fade_weight_le fx hx0 hx1
  have wy := fade_weight_le fy hy0 hy1
  have g00 := grad_abs_le (hash X Y) fx fy
  have g10 := grad_abs_le (hash (X + 1) Y) (fx - 1) fy
  have g01 := grad_abs_le (hash X (Y + 1)) fx (fy - 1)
  have g11 := grad_abs_le (hash (X + 1) (Y + 1)) (fx - 1) (fy - 1)
  rw [abs_of_nonneg hx0, abs_of_nonneg hy0] at g00
  rw [abs_of_nonpos (by linarith : fx - 1 ≤ 0), abs_of_nonneg hy0] at g10
  rw [abs_of_nonneg hx0, abs_of_nonpos (by linarith : fy - 1 ≤ 0)] at g01
  rw [abs_of_nonpos (by linarith : fx - 1 ≤ 0), abs_of_nonpos (by linarith : fy - 1 ≤ 0)] at g11
  unfold cellFormulaOf PerlinNoise.lerp
  generalize PerlinNoise.grad (hash X Y) fx fy = a at g00
  generalize PerlinNoise.grad (hash (X + 1) Y) (fx - 1) fy = b at g10
  generalize PerlinNoise.grad (hash X (Y + 1)) fx (fy - 1) = c at g01
  generalize PerlinNoise.grad (hash (X + 1) (Y + 1)) (fx - 1) (fy - 1) = d at g11
  generalize PerlinNoise.fade fx = u at u0 u1 wx
  generalize PerlinNoise.fade fy = v at v0 v1 wy
  rw [abs_le] at g00 g10 g01 g11 ⊢
  have e : a + u * (b - a) + v * (c + u * (d - c) - (a + u * (b - a))) =
      (1 - v) * ((1 - u) * a + u * b) + v * ((1 - u) * c + u * d) := by ring
  rw [e]
  have nu : 0 ≤ 1 - u := by linarith
  have nv : 0 ≤ 1 - v := by linarith
  have A1 : (1 - u) * a ≤ (1 - u) * (fx + fy) := mul_le_mul_of_nonneg_left g00.2 nu
  have A2 : (1 - u) * -(fx + fy) ≤ (1 - u) * a := mul_le_mul_of_nonneg_left g00.1 nu
  have B1 : u * b ≤ u * (-(fx - 1) + fy) := mul_le_mul_of_nonneg_left g10.2 u0
  have B2 : u * -(-(fx - 1) + fy) ≤ u * b := mul_le_mul_of_nonneg_left g10.1 u0
  have C1 : (1 - u) * c ≤ (1 - u) * (fx + -(fy - 1)) := mul_le_mul_of_nonneg_left g01.2 nu
  have C2 : (1 - u) * -(fx + -(fy - 1)) ≤ (1 - u) * c := mul_le_mul_of_nonneg_left g01.1 nu
  have D1 : u * d ≤ u * (-(fx - 1) + -(fy - 1)) := mul_le_mul_of_nonneg_left g11.2 u0
  have D2 : u * -(-(fx - 1) + -(fy - 1)) ≤ u * d := mul_le_mul_of_nonneg_left g11.1 u0
  have E1 := mul_le_mul_of_nonneg_left (add_le_add A1 B1) nv
  have E2 := mul_le_mul_of_nonneg_left (add_le_add A2 B2) nv
  have F1 := mul_le_mul_of_nonneg_left (add_le_add C1 D1) v0
  have F2 := mul_le_mul_of_nonneg_left (add_le_add C2 D2) v0
  have I1 : (1 - v) * ((1 - u) * (fx + fy) + u * (-(fx - 1) + fy)) +
      v * ((1 - u) * (fx + -(fy - 1)) + u * (-(fx - 1) + -(fy - 1))) =
      (fx * (1 - u) + (1 - fx) * u) + (fy * (1 - v) + (1 - fy) * v) := by ring
  have I2 : (1 - v) * ((1 - u) * -(fx + fy) + u * -(-(fx - 1) + fy)) +
      v * ((1 - u) * -(fx + -(fy - 1)) + u * -(-(fx - 1) + -(fy - 1))) =
      -((fx * (1 - u) + (1 - fx) * u) + (fy * (1 - v) + (1 - fy) * v)) := by ring
  constructor <;> linarith

end FieldLemmas

/-! ## Range of the noise -/

/-- C2: on every table satisfying the permutation and duplication invariants and at every
coordinate pair, `noise` returns a value, that value is `(res + 1) / 2` for a raw interpolated
value `res` in `[-1, 1]`, and it lies in `[0, 1]`. -/
theorem noise_range {α : Type} [LinearOrderedField α] [FloorRing α] (p : List Int)
    (hp : ValidTable p) (x y : α) :
    ∃ res : α, -1 ≤ res ∧ res ≤ 1 ∧ PerlinNoise.noise p x y = some ((res + 1) / 2) ∧
      0 ≤ (res + 1) / 2 ∧ (res + 1) / 2 ≤ 1 := by
  have hb := cellFormulaOf_abs_le (cornerHash p) (⌊x⌋ % 256) (⌊y⌋ % 256)
    (x - (⌊x⌋ : α)) (y - (⌊y⌋ : α)) (Int.fract_nonneg x) (Int.fract_lt_one x).le
    (Int.fract_nonneg y) (Int.fract_lt_one y).le
  rw [abs_le] at hb
  refine ⟨cellFormula p (⌊x⌋ % 256) (⌊y⌋ % 256) (x - (⌊x⌋ : α)) (y - (⌊y⌋ : α)),
    hb.1, hb.2, noise_eq_some p hp x y, ?_, ?_⟩
  · have : -1 ≤ cellFormula p (⌊x⌋ % 256) (⌊y⌋ % 256) (x - (⌊x⌋ : α)) (y - (⌊y⌋ : α)) := hb.1
    linarith
  · have : cellFormula p (⌊x⌋ % 256) (⌊y⌋ % 256) (x - (⌊x⌋ : α)) (y - (⌊y⌋ : α)) ≤ 1 := hb.2
    linarith

/-- Witness for C2: the table built from the exchange `(0, 1)`, sampled at `(1/4, 0)` over the
rationals. -/
theorem noise_range_witness :
    ValidTable (PerlinNoise.ctor [(0, 1)]) ∧
    ∃ res : ℚ, -1 ≤ res ∧ res ≤ 1 ∧
      PerlinNoise.noise (PerlinNoise.ctor [(0, 1)]) (1 / 4 : ℚ) 0 = some ((res + 1) / 2) ∧
      0 ≤ (res + 1) / 2 ∧ (res + 1) / 2 ≤ 1 :=
  ⟨ctor_valid [(0, 1)], noise_range (PerlinNoise.ctor [(0, 1)]) (ctor_valid [(0, 1)]) (1 / 4) 0⟩

/-! ## The fractal sampler -/

/-- Entries of the table built without any exchange: `p[i] = i` for `i < 256`. -/
theorem tbl_ctor_nil (i : Int) (h0 : 0 ≤ i) (h1 : i < 256) : tbl (PerlinNoise.ctor []) i = i := by
  have hlt : i.toNat < 256 := by omega
  have hlen : i.toNat < PerlinNoise.iota256.length := by rw [PerlinNoise.iota256_length]; exact hlt
  unfold tbl PerlinNoise.idx
  show (if 0 ≤ i then (PerlinNoise.iota256 ++ PerlinNoise.iota256)[i.toNat]? else none).getD 0 = i
  rw [if_pos h0, List.getElem?_append_left hlen]
  unfold PerlinNoise.iota256
  simp only [List.getElem?_map, List.getElem?_range hlt, Option.map_some', Option.getD_some,
    Int.ofNat_eq_coe]
  omega

section OctaveLemmas

variable {α : Type} [LinearOrderedField α] [FloorRing α]

theorem noiseValue_range (p : List Int) (x y : α) : 0 ≤ noiseValue p x y ∧ noiseValue p x y ≤ 1 := by
  have hb := cellFormulaOf_abs_le (cornerHash p) (⌊x⌋ % 256) (⌊y⌋ % 256)
    (x - (⌊x⌋ : α)) (y - (⌊y⌋ : α)) (Int.fract_nonneg x) (Int.fract_lt_one x).le
    (Int.fract_nonneg y) (Int.fract_lt_one y).le
  rw [abs_le] at hb
  unfold noiseValue cellFormula
  constructor
  · linarith [hb.1]
  · linarith [hb.2]

/-- Invariant of the octave loop for a non-negative persistence: the loop terminates with a
state, `0 ≤ total ≤ maxValue` is preserved, `maxValue` does not decrease, and after at least one
iteration it has grown by the starting amplitude. -/
theorem octaveLoop_invariant (p : List Int) (hp : ValidTable p) (persistence x y : α)
    (hP : 0 ≤ persistence) (n : Nat) :
    ∀ s : OctaveState α, 0 ≤ s.amplitude → 0 ≤ s.total → s.total ≤ s.maxValue →
      ∃ r : OctaveState α, octaveLoop p persistence x y n s = some r ∧ 0 ≤ r.total ∧
        r.total ≤ r.maxValue ∧ s.maxValue ≤ r.maxValue ∧
        (0 < n → s.maxValue + s.amplitude ≤ r.maxValue) := by
  induction n with
  | zero =>
    intro s _ h0 h1
    exact ⟨s, rfl, h0, h1, le_refl _, fun h => absurd h (lt_irrefl 0)⟩
  | succ k ih =>
    intro s ha h0 h1
    have hn := noiseValue_range p (x * s.frequency) (y * s.frequency)
    obtain ⟨r, hr, r0, r1, r2, _⟩ := ih
      { total := s.total + noiseValue p (x * s.frequency) (y * s.frequency) * s.amplitude
        frequency := s.frequency * 2
        amplitude := s.amplitude * persistence
        maxValue := s.maxValue + s.amplitude }
      (mul_nonneg ha hP)
      (add_nonneg h0 (mul_nonneg hn.1 ha))
      (add_le_add h1 (by
        have := mul_le_mul_of_nonneg_right hn.2 ha
        rwa [one_mul] at this))
    refine ⟨r, ?_, r0, r1, ?_, fun _ => r2⟩
    · simp only [octaveLoop, noise_eq_some p hp, Option.bind_eq_bind, Option.some_bind]
      exact hr
    · have : s.maxValue ≤ s.maxValue + s.amplitude := le_add_of_nonneg_right ha
      exact this.trans r2

end OctaveLemmas

/-- Value of the noise in the cell `(0, 0)` of the table built without any exchange, for offsets
`0 ≤ x, y < 1`. -/
theorem noiseValue_ctor_nil_cell0 (x y : ℚ) (hx0 : 0 ≤ x) (hx1 : x < 1) (hy0 : 0 ≤ y)
    (hy1 : y < 1) :
    noiseValue (PerlinNoise.ctor []) x y =
      (PerlinNoise.lerp (PerlinNoise.fade y)
        (PerlinNoise.lerp (PerlinNoise.fade x) (x + y) (-(x - 1) + y))
        (PerlinNoise.lerp (PerlinNoise.fade x) (-x + (y - 1)) (-(x - 1) + (y - 1))) + 1) / 2 := by
  have fx : ⌊x⌋ = 0 := by rw [Int.floor_eq_iff]; constructor <;> simp [hx0, hx1]
  have fy : ⌊y⌋ = 0 := by rw [Int.floor_eq_iff]; constructor <;> simp [hy0, hy1]
  have t0 : tbl (PerlinNoise.ctor []) 0 = 0 := tbl_ctor_nil 0 (by norm_num) (by norm_num)
  have t1 : tbl (PerlinNoise.ctor []) 1 = 1 := tbl_ctor_nil 1 (by norm_num) (by norm_num)
  have t2 : tbl (PerlinNoise.ctor []) 2 = 2 := tbl_ctor_nil 2 (by norm_num) (by norm_num)
  unfold noiseValue cellFormula cellFormulaOf cornerHash
  simp only [fx, fy, grad_eq_linear]
  norm_num [t0, t1, t2, gradX, gradY]

/-- With at least one octave and a non-negative persistence the quotient `total / maxValue` is a
convex combination of noise values. -/
theorem perlinNoiseWith_bounds {α : Type} [LinearOrderedField α] [FloorRing α] (p : List Int)
    (hp : ValidTable p) (octaves : Int) (frequency persistence x y : α)
    (hO : 1 ≤ octaves) (hP : 0 ≤ persistence) :
    ∃ r : α, perlinNoiseWith octaves frequency persistence p x y = some r ∧ 0 ≤ r ∧ r ≤ 1 := by
  obtain ⟨s, hs, s0, s1, _, s3⟩ := octaveLoop_invariant p hp persistence x y hP octaves.toNat
    { total := 0, frequency := frequency, amplitude := 1, maxValue := 0 }
    zero_le_one (le_refl _) (le_refl _)
  have hpos : 0 < s.maxValue := by
    have := s3 (by omega)
    simp only [zero_add] at this
    exact lt_of_lt_of_le zero_lt_one this
  refine ⟨s.total / s.maxValue, ?_, div_nonneg s0 hpos.le, (div_le_one hpos).mpr s1⟩
  unfold perlinNoiseWith
  simp only [hs, Option.bind_eq_bind, Option.some_bind, hpos.ne', if_false]

/-- C3 (amended): on a valid table, for every point, every frequency, every octave count
`octaves ≥ 1` and every persistence `≥ 0`, the fractal sampler returns a value and that value lies
in `[0, 1]`. -/
theorem perlinNoiseWith_range {α : Type} [LinearOrderedField α] [FloorRing α] (p : List Int)
    (hp : ValidTable p) (octaves : Int) (frequency persistence x y : α)
    (hO : 1 ≤ octaves) (hP : 0 ≤ persistence) :
    ∃ r : α, perlinNoiseWith octaves frequency persistence p x y = some r ∧ 0 ≤ r ∧ r ≤ 1 :=
  perlinNoiseWith_bounds p hp octaves frequency persistence x y hO hP

/-- Counterexample to C3 as stated: with the frequency of the source, two octaves and persistence
`-1/2` the sampler returns a value above `1` at the grid point `(22, 11)`; with zero octaves the
divisor `maxValue` is zero and no value is returned. -/
theorem perlinNoiseWith_negative_persistence :
    perlinNoiseWith 2 FREQUENCY (-1 / 2) (PerlinNoise.ctor []) (22 : ℚ) 11 =
      some (19185803799087421 / 19073486328125000) ∧
    ¬ ((19185803799087421 / 19073486328125000 : ℚ) ≤ 1) ∧
    perlinNoiseWith 0 FREQUENCY PERSISTENCE (PerlinNoise.ctor []) (22 : ℚ) 11 = none := by
  refine ⟨?_, by norm_num, ?_⟩
  · have h1 := noiseValue_ctor_nil_cell0 (22 * FREQUENCY) (11 * FREQUENCY)
      (by norm_num [FREQUENCY]) (by norm_num [FREQUENCY]) (by norm_num [FREQUENCY])
      (by norm_num [FREQUENCY])
    have h2 := noiseValue_ctor_nil_cell0 (22 * (FREQUENCY * 2)) (11 * (FREQUENCY * 2))
      (by norm_num [FREQUENCY]) (by norm_num [FREQUENCY]) (by norm_num [FREQUENCY])
      (by norm_num [FREQUENCY])
    have e : (2 : Int).toNat = 2 := rfl
    unfold perlinNoiseWith
    simp only [e, octaveLoop, noise_eq_some _ (ctor_valid []), Option.bind_eq_bind,
      Option.some_bind, h1, h2]
    norm_num [FREQUENCY, PerlinNoise.lerp, PerlinNoise.fade]
  · have e : (0 : Int).toNat = 0 := rfl
    unfold perlinNoiseWith
    simp [e, octaveLoop]

/-- Witness for C3 (amended): the constants of the source on the table built from the exchange
`(0, 1)`, at the grid point `(3, 7)`. -/
theorem perlinNoiseWith_range_witness :
    ValidTable (PerlinNoise.ctor [(0, 1)]) ∧ 1 ≤ OCTAVES ∧ (0 : ℚ) ≤ PERSISTENCE ∧
    ∃ r : ℚ, perlinNoiseWith OCTAVES FREQUENCY PERSISTENCE (PerlinNoise.ctor [(0, 1)]) 3 7 = some r ∧
      0 ≤ r ∧ r ≤ 1 :=
  ⟨ctor_valid [(0, 1)], by decide, by norm_num [PERSISTENCE],
   perlinNoiseWith_range (PerlinNoise.ctor [(0, 1)]) (ctor_valid [(0, 1)]) OCTAVES FREQUENCY
     PERSISTENCE 3 7 (by decide) (by norm_num [PERSISTENCE])⟩

/-! ## Height-map generation -/

theorem optList_map_of_forall {γ β : Type} (l : List γ) (F : γ → Option β) (f : γ → β)
    (h : ∀ a ∈ l, F a = some (f a)) : optList (l.map F) = some (l.map f) := by
  induction l with
  | nil => rfl
  | cons a t ih =>
    have ha := h a (List.mem_cons_self a t)
    have ht := ih (fun b hb => h b (List.mem_cons_of_mem a hb))
    simp only [List.map_cons, ha, optList, ht, Option.map_some']

/-- Cell `(i, j)` of a grid given row by row and cell by cell. -/
theorem cellAt_tabulate (n m : Nat) (f : Nat → Nat → Int) (i j : Nat) (hi : i < n) (hj : j < m) :
    cellAt ((List.range n).map (fun a => (List.range m).map (fun b => f a b))) i j =
      some (f i j) := by
  unfold cellAt
  simp [List.getElem?_range hi, List.getElem?_range hj]

theorem truncToInt_of_nonneg {α : Type} [LinearOrderedField α] [FloorRing α] (v : α)
    (h : 0 ≤ v) : truncToInt v = ⌊v⌋ := by
  unfold truncToInt
  rw [if_pos h]

/-- C4: on a valid table, height-map generation with `TERRAIN_SIZE = 100` and `MAX_HEIGHT = 24`
produces a grid of exactly 100 rows of exactly 100 cells; the cell `(i, j)` is
`⌊perlinNoise(i, j) * 24⌋` and lies in `[0, 24]`. -/
theorem generateTerrain_grid {α : Type} [LinearOrderedField α] [FloorRing α] (p : List Int)
    (hp : ValidTable p) :
    ∃ g : List (List Int), generateTerrain α p = some g ∧ g.length = 100 ∧
      (∀ row ∈ g, row.length = 100) ∧
      ∀ i j : Nat, i < 100 → j < 100 →
        ∃ v : α, perlinNoise p (i : α) (j : α) = some v ∧
          cellAt g i j = some ⌊v * 24⌋ ∧ 0 ≤ ⌊v * 24⌋ ∧ ⌊v * 24⌋ ≤ 24 := by
  have hval : ∀ i j : Nat, ∃ v : α, perlinNoise p (i : α) (j : α) = some v ∧ 0 ≤ v ∧ v ≤ 1 := by
    intro i j
    exact perlinNoiseWith_bounds p hp OCTAVES FREQUENCY PERSISTENCE (i : α) (j : α) (by decide)
      (by norm_num [PERSISTENCE])
  choose val hval using hval
  have hcell : ∀ i j : Nat,
      heightCell α p MAX_HEIGHT (i : Int) (j : Int) = some ⌊val i j * 24⌋ := by
    intro i j
    unfold heightCell
    have h24 : ((MAX_HEIGHT : Int) : α) = 24 := by norm_num [MAX_HEIGHT]
    simp only [Int.cast_natCast, (hval i j).1, Option.map_some', h24]
    rw [truncToInt_of_nonneg _ (mul_nonneg (hval i j).2.1 (by norm_num))]
  refine ⟨(List.range 100).map (fun i => (List.range 100).map (fun j => ⌊val i j * 24⌋)),
    ?_, by simp, ?_, ?_⟩
  · unfold generateTerrain generateWith
    have e : TERRAIN_SIZE.toNat = 100 := rfl
    rw [e]
    apply optList_map_of_forall
    intro i _
    exact optList_map_of_forall _ _ _ (fun j _ => hcell i j)
  · intro row hrow
    simp only [List.mem_map] at hrow
    obtain ⟨i, _, rfl⟩ := hrow
    simp
  · intro i j hi hj
    refine ⟨val i j, (hval i j).1, cellAt_tabulate 100 100 _ i j hi hj, ?_, ?_⟩
    · exact Int.floor_nonneg.mpr (mul_nonneg (hval i j).2.1 (by norm_num))
    · have h1 : val i j * 24 ≤ ((24 : Int) : α) := by
        have := (hval i j).2.2
        push_cast
        linarith
      exact Int.floor_le_iff.mpr (lt_of_le_of_lt h1 (by push_cast; linarith))

/-- Witness for C4: the cell `(3, 7)` of the grid generated from the table built with the
exchange `(0, 1)`, over the rationals. -/
theorem generateTerrain_grid_witness :
    ValidTable (PerlinNoise.ctor [(0, 1)]) ∧
    ∃ g : List (List Int), generateTerrain ℚ (PerlinNoise.ctor [(0, 1)]) = some g ∧
      g.length = 100 ∧
      ∃ v : ℚ, perlinNoise (PerlinNoise.ctor [(0, 1)]) (((3 : Nat) : ℚ)) (((7 : Nat) : ℚ)) = some v ∧
        cellAt g ((3 : Nat) : Int) ((7 : Nat) : Int) = some ⌊v * 24⌋ ∧ 0 ≤ ⌊v * 24⌋ ∧
        ⌊v * 24⌋ ≤ 24 := by
  obtain ⟨g, h1, h2, _, h4⟩ :=
    generateTerrain_grid (α := ℚ) (PerlinNoise.ctor [(0, 1)]) (ctor_valid [(0, 1)])
  exact ⟨ctor_valid [(0, 1)], g, h1, h2, h4 3 7 (by decide) (by decide)⟩

/-! ## Smoothing -/

theorem cellAt_eq_some_cellVal (g : List (List Int)) (hg : g.length = 100)
    (hrow : ∀ row ∈ g, row.length = 100) (a b : Int) (h : inGrid a b = true) :
    cellAt g a b = some (cellVal g a b) := by
  simp only [inGrid, TERRAIN_SIZE, decide_eq_true_eq] at h
  obtain ⟨a0, a1, b0, b1⟩ := h
  have ha : a.toNat < g.length := by omega
  have hb : b.toNat < (g[a.toNat]).length := by
    rw [hrow _ (List.getElem_mem ha)]; omega
  unfold cellVal cellAt
  simp [a0, b0, List.getElem?_eq_getElem ha, List.getElem?_eq_getElem hb]

/-- One step of the neighbour loops on a full-size grid. -/
theorem neighborStep_eq (g : List (List Int)) (hg : g.length = 100)
    (hrow : ∀ row ∈ g, row.length = 100) (i j x y s c : Int) :
    neighborStep g i j x y (some (s, c)) =
      some (if inGrid (i + x) (j + y) = true then (s + cellVal g (i + x) (j + y), c + 1)
        else (s, c)) := by
  unfold neighborStep
  by_cases h : inGrid (i + x) (j + y) = true
  · have h2 := h
    simp only [inGrid, decide_eq_true_eq] at h2
    simp only [Option.some_bind, ge_iff_le, h2.1, h2.2.1, h2.2.2.1, h2.2.2.2, and_self, if_true,
      cellAt_eq_some_cellVal g hg hrow _ _ h, Option.map_some', h]
  · have h2 := h
    simp only [inGrid, decide_eq_true_eq] at h2
    simp only [Option.some_bind, ge_iff_le, h2, if_false, h]
    rfl

/-- The loop over a list of offsets accumulates the sum and the number of in-bounds cells. -/
theorem neighbor_fold (g : List (List Int)) (hg : g.length = 100)
    (hrow : ∀ row ∈ g, row.length = 100) (i j : Int) (L : List (Int × Int)) :
    ∀ s c : Int, L.foldl (fun acc q => neighborStep g i j q.1 q.2 acc) (some (s, c)) =
      some (s + (((L.map (fun q => (i + q.1, j + q.2))).filter (fun c => inGrid c.1 c.2)).map
          (fun c => cellVal g c.1 c.2)).sum,
        c + (((L.map (fun q => (i + q.1, j + q.2))).filter (fun c => inGrid c.1 c.2)).map
          (fun c => cellVal g c.1 c.2)).length) := by
  induction L with
  | nil => intro s c; simp
  | cons q t ih =>
    intro s c
    rw [List.foldl_cons, neighborStep_eq g hg hrow]
    by_cases h : inGrid (i + q.1) (j + q.2) = true
    · rw [if_pos h, ih]
      simp only [List.map_cons, List.filter_cons, h, if_true, List.sum_cons, List.length_cons,
        Nat.cast_add, Nat.cast_one]
      congr 2 <;> ring
    · rw [if_neg h, ih]
      simp only [List.map_cons, List.filter_cons, h, if_false]
      rfl

theorem neighborLoop_eq (g : List (List Int)) (hg : g.length = 100)
    (hrow : ∀ row ∈ g, row.length = 100) (i j : Int) :
    neighborLoop g i j =
      some ((neighbourhood g i j).sum, ((neighbourhood g i j).length : Int)) := by
  have h : neighborLoop g i j =
      offsets9.foldl (fun acc q => neighborStep g i j q.1 q.2 acc) (some (0, 0)) := rfl
  rw [h, neighbor_fold g hg hrow]
  simp only [zero_add]
  rfl

/-- Number of in-bounds cells of the 3×3 neighbourhood: two rows (columns) at a border index,
three otherwise. -/
theorem neighbourhood_length (g : List (List Int)) (i j : Int) (hi0 : 0 ≤ i) (hi1 : i < 100)
    (hj0 : 0 ≤ j) (hj1 : j < 100) :
    (neighbourhood g i j).length =
      (if i = 0 ∨ i = 99 then 2 else 3) * (if j = 0 ∨ j = 99 then 2 else 3) := by
  have hi : i = 0 ∨ i = 99 ∨ (0 < i ∧ i < 99) := by omega
  have hj : j = 0 ∨ j = 99 ∨ (0 < j ∧ j < 99) := by omega
  unfold neighbourhood offsets9
  simp only [List.map_cons, List.map_nil, List.length_map, List.filter_cons, inGrid, TERRAIN_SIZE,
    decide_eq_true_eq]
  rcases hi with rfl | rfl | ⟨a0, a1⟩ <;> rcases hj with rfl | rfl | ⟨b0, b1⟩
  all_goals
    first
    | (norm_num; done)
    | (have p1 : 0 ≤ j + -1 := by omega
       have p2 : j + -1 < 100 := by omega
       have p3 : 0 ≤ j + 1 := by omega
       have p4 : j + 1 < 100 := by omega
       have p5 : ¬ (j = 0 ∨ j = 99) := by omega
       simp [p1, p2, p3, p4, p5, hj0, hj1]; done)
    | (have q1 : 0 ≤ i + -1 := by omega
       have q2 : i + -1 < 100 := by omega
       have q3 : 0 ≤ i + 1 := by omega
       have q4 : i + 1 < 100 := by omega
       have q5 : ¬ (i = 0 ∨ i = 99) := by omega
       simp [q1, q2, q3, q4, q5, hi0, hi1]; done)
    | (have p1 : 0 ≤ j + -1 := by omega
       have p2 : j + -1 < 100 := by omega
       have p3 : 0 ≤ j + 1 := by omega
       have p4 : j + 1 < 100 := by omega
       have p5 : ¬ (j = 0 ∨ j = 99) := by omega
       have q1 : 0 ≤ i + -1 := by omega
       have q2 : i + -1 < 100 := by omega
       have q3 : 0 ≤ i + 1 := by omega
       have q4 : i + 1 < 100 := by omega
       have q5 : ¬ (i = 0 ∨ i = 99) := by omega
       simp [p1, p2, p3, p4, p5, q1, q2, q3, q4, q5, hi0, hi1, hj0, hj1]; done)

theorem sum_bounds (L : List Int) (lo hi : Int) (h : ∀ v ∈ L, lo ≤ v ∧ v ≤ hi) :
    (L.length : Int) * lo ≤ L.sum ∧ L.sum ≤ (L.length : Int) * hi := by
  induction L with
  | nil => simp
  | cons a t ih =>
    have ha := h a (List.mem_cons_self a t)
    have ht := ih (fun v hv => h v (List.mem_cons_of_mem a hv))
    simp only [List.length_cons, List.sum_cons, Nat.cast_add, Nat.cast_one]
    constructor <;> nlinarith [ha.1, ha.2, ht.1, ht.2]

/-- The truncating quotient of a sum by the number of its terms lies between any two bounds of
the terms. -/
theorem tdiv_sum_bounds (L : List Int) (hL : L ≠ []) (lo hi : Int)
    (h : ∀ v ∈ L, lo ≤ v ∧ v ≤ hi) :
    lo ≤ Int.tdiv L.sum (L.length : Int) ∧ Int.tdiv L.sum (L.length : Int) ≤ hi := by
  have hn : (0 : Int) < (L.length : Int) := by
    have : 0 < L.length := List.length_pos.mpr hL
    exact_mod_cast this
  obtain ⟨h1, h2⟩ := sum_bounds L lo hi h
  generalize (L.length : Int) = n at hn h1 h2
  generalize L.sum = a at h1 h2
  by_cases ha : 0 ≤ a
  · rw [Int.tdiv_eq_ediv ha hn.le]
    constructor
    · exact Int.le_ediv_of_mul_le hn (by linarith [mul_comm n lo])
    · exact Int.ediv_le_of_le_mul hn (by linarith [mul_comm n hi])
  · have hneg : 0 ≤ -a := by omega
    have e : Int.tdiv a n = -((-a) / n) := by
      rw [← Int.tdiv_eq_ediv hneg hn.le, Int.neg_tdiv, neg_neg]
    rw [e]
    constructor
    · have : (-a) / n ≤ -lo := Int.ediv_le_of_le_mul hn (by linarith [mul_comm n lo])
      omega
    · have : -hi ≤ (-a) / n := Int.le_ediv_of_mul_le hn (by linarith [mul_comm n hi])
      omega

theorem neighbourhood_ne_nil (g : List (List Int)) (i j : Int) (hi0 : 0 ≤ i) (hi1 : i < 100)
    (hj0 : 0 ≤ j) (hj1 : j < 100) : neighbourhood g i j ≠ [] := by
  intro h
  have hl := neighbourhood_length g i j hi0 hi1 hj0 hj1
  rw [h] at hl
  simp only [List.length_nil] at hl
  split_ifs at hl

/-- The value stored by `smoothTerrain` in cell `(i, j)` of a full-size grid. -/
theorem smoothCell_eq (g : List (List Int)) (hg : g.length = 100)
    (hrow : ∀ row ∈ g, row.length = 100) (i j : Int) (hi0 : 0 ≤ i) (hi1 : i < 100)
    (hj0 : 0 ≤ j) (hj1 : j < 100) :
    smoothCell g i j =
      some (Int.tdiv (neighbourhood g i j).sum ((neighbourhood g i j).length : Int)) := by
  have hne := neighbourhood_ne_nil g i j hi0 hi1 hj0 hj1
  have hlen : ((neighbourhood g i j).length : Int) ≠ 0 := by
    have : 0 < (neighbourhood g i j).length := List.length_pos.mpr hne
    omega
  unfold smoothCell
  rw [neighborLoop_eq g hg hrow]
  simp only [Option.some_bind, hlen, if_false]

/-- The grid produced by `smoothTerrain` on a full-size grid. -/
theorem smoothTerrain_eq (g : List (List Int)) (hg : g.length = 100)
    (hrow : ∀ row ∈ g, row.length = 100) :
    smoothTerrain g = some ((List.range 100).map (fun (i : Nat) => (List.range 100).map
      (fun (j : Nat) =>
        Int.tdiv (neighbourhood g i j).sum ((neighbourhood g i j).length : Int)))) := by
  unfold smoothTerrain
  have e : TERRAIN_SIZE.toNat = 100 := rfl
  rw [e]
  apply optList_map_of_forall
  intro i hi
  apply optList_map_of_forall
  intro j hj
  have hi' := List.mem_range.mp hi
  have hj' := List.mem_range.mp hj
  exact smoothCell_eq g hg hrow i j (by omega) (by omega) (by omega) (by omega)

/-- C5: for every `TERRAIN_SIZE × TERRAIN_SIZE` grid, `smoothTerrain` yields a grid of the same
dimensions whose cell `(i, j)` is the truncating quotient of the sum of the in-bounds 3×3
neighbourhood of `(i, j)` by the number of its cells, and that number is 4 at the four corners,
6 on the edges away from the corners and 9 in the interior. -/
theorem smoothTerrain_average (g : List (List Int)) (hg : g.length = 100)
    (hrow : ∀ row ∈ g, row.length = 100) :
    ∃ g' : List (List Int), smoothTerrain g = some g' ∧ g'.length = 100 ∧
      (∀ row ∈ g', row.length = 100) ∧
      ∀ i j : Nat, i < 100 → j < 100 →
        cellAt g' i j =
          some (Int.tdiv (neighbourhood g i j).sum ((neighbourhood g i j).length : Int)) ∧
        ((i = 0 ∨ i = 99) ∧ (j = 0 ∨ j = 99) → (neighbourhood g i j).length = 4) ∧
        (((i = 0 ∨ i = 99) ∧ ¬ (j = 0 ∨ j = 99)) ∨ (¬ (i = 0 ∨ i = 99) ∧ (j = 0 ∨ j = 99)) →
          (neighbourhood g i j).length = 6) ∧
        (¬ (i = 0 ∨ i = 99) ∧ ¬ (j = 0 ∨ j = 99) → (neighbourhood g i j).length = 9) := by
  refine ⟨_, smoothTerrain_eq g hg hrow, by simp, ?_, ?_⟩
  · intro row hr
    simp only [List.mem_map] at hr
    obtain ⟨i, _, rfl⟩ := hr
    simp
  · intro i j hi hj
    have hlen := neighbourhood_length g i j (by omega) (by omega) (by omega) (by omega)
    have ei : ((i : Int) = 0 ∨ (i : Int) = 99) ↔ (i = 0 ∨ i = 99) := by omega
    have ej : ((j : Int) = 0 ∨ (j : Int) = 99) ↔ (j = 0 ∨ j = 99) := by omega
    simp only [ei, ej] at hlen
    refine ⟨cellAt_tabulate 100 100 _ i j hi hj, ?_, ?_, ?_⟩
    · rintro ⟨h1, h2⟩
      rw [hlen, if_pos h1, if_pos h2]
    · rintro (⟨h1, h2⟩ | ⟨h1, h2⟩)
      · rw [hlen, if_pos h1, if_neg h2]
      · rw [hlen, if_neg h1, if_pos h2]
    · rintro ⟨h1, h2⟩
      rw [hlen, if_neg h1, if_neg h2]

theorem rampGrid_length : rampGrid.length = 100 := by simp [rampGrid]

theorem rampGrid_rows : ∀ row ∈ rampGrid, row.length = 100 := by
  intro row hr
  simp only [rampGrid, List.mem_map] at hr
  obtain ⟨i, _, rfl⟩ := hr
  simp

/-- Witness for C5: the ramp grid, at the corner `(0, 0)`, the edge cell `(0, 5)` and the
interior cell `(4, 5)`. -/
theorem smoothTerrain_average_witness :
    rampGrid.length = 100 ∧ (∀ row ∈ rampGrid, row.length = 100) ∧
    ∃ g' : List (List Int), smoothTerrain rampGrid = some g' ∧ g'.length = 100 ∧
      (neighbourhood rampGrid (0 : Nat) (0 : Nat)).length = 4 ∧
      (neighbourhood rampGrid (0 : Nat) (5 : Nat)).length = 6 ∧
      (neighbourhood rampGrid (4 : Nat) (5 : Nat)).length = 9 ∧
      cellAt g' (4 : Nat) (5 : Nat) =
        some (Int.tdiv (neighbourhood rampGrid (4 : Nat) (5 : Nat)).sum
          ((neighbourhood rampGrid (4 : Nat) (5 : Nat)).length : Int)) := by
  obtain ⟨g', h1, h2, _, h4⟩ := smoothTerrain_average rampGrid rampGrid_length rampGrid_rows
  exact ⟨rampGrid_length, rampGrid_rows, g', h1, h2,
    (h4 0 0 (by decide) (by decide)).2.1 (by decide),
    (h4 0 5 (by decide) (by decide)).2.2.1 (by decide),
    (h4 4 5 (by decide) (by decide)).2.2.2 (by decide),
    (h4 4 5 (by decide) (by decide)).1⟩

theorem neighbourhood_mem (g : List (List Int)) (i j v : Int) (hv : v ∈ neighbourhood g i j) :
    ∃ a b : Int, inGrid a b = true ∧ v = cellVal g a b := by
  unfold neighbourhood at hv
  simp only [List.mem_map, List.mem_filter] at hv
  obtain ⟨c, ⟨_, hc⟩, rfl⟩ := hv
  exact ⟨c.1, c.2, hc, rfl⟩

theorem centre_mem_neighbourhood (g : List (List Int)) (i j : Int) (h : inGrid i j = true) :
    cellVal g i j ∈ neighbourhood g i j := by
  unfold neighbourhood
  simp only [List.mem_map, List.mem_filter]
  refine ⟨(i, j), ⟨⟨(0, 0), by simp [offsets9], by simp⟩, h⟩, rfl⟩

theorem cellVal_mem_row (g : List (List Int)) (hg : g.length = 100)
    (hrow : ∀ row ∈ g, row.length = 100) (a b : Int) (h : inGrid a b = true) :
    ∃ row ∈ g, cellVal g a b ∈ row := by
  have h2 := h
  simp only [inGrid, TERRAIN_SIZE, decide_eq_true_eq] at h2
  obtain ⟨a0, a1, b0, b1⟩ := h2
  have ha : a.toNat < g.length := by omega
  have hb : b.toNat < (g[a.toNat]).length := by
    rw [hrow _ (List.getElem_mem ha)]; omega
  refine ⟨g[a.toNat], List.getElem_mem ha, ?_⟩
  have : cellVal g a b = (g[a.toNat])[b.toNat] := by
    unfold cellVal cellAt
    simp [a0, b0, List.getElem?_eq_getElem ha, List.getElem?_eq_getElem hb]
  rw [this]
  exact List.getElem_mem hb

theorem inGrid_of_nat (i j : Nat) (hi : i < 100) (hj : j < 100) :
    inGrid (i : Int) (j : Int) = true := by
  simp only [inGrid, TERRAIN_SIZE, decide_eq_true_eq]
  omega

/-- Bounds of a smoothed cell: between any two bounds of its in-bounds neighbourhood. -/
theorem smoothed_between (g : List (List Int)) (i j : Nat) (hi : i < 100) (hj : j < 100)
    (lo hi' : Int) (h : ∀ v ∈ neighbourhood g i j, lo ≤ v ∧ v ≤ hi') :
    lo ≤ Int.tdiv (neighbourhood g i j).sum ((neighbourhood g i j).length : Int) ∧
      Int.tdiv (neighbourhood g i j).sum ((neighbourhood g i j).length : Int) ≤ hi' :=
  tdiv_sum_bounds _ (neighbourhood_ne_nil g i j (by omega) (by omega) (by omega) (by omega))
    lo hi' h

/-- Dimensions of a grid given row by row and cell by cell. -/
theorem tabulate_dims (n m : Nat) (f : Nat → Nat → Int) :
    ((List.range n).map (fun a => (List.range m).map (fun b => f a b))).length = n ∧
    ∀ row ∈ (List.range n).map (fun a => (List.range m).map (fun b => f a b)),
      row.length = m := by
  refine ⟨by simp, ?_⟩
  intro row hr
  simp only [List.mem_map] at hr
  obtain ⟨i, _, rfl⟩ := hr
  simp

/-- C6: on a full-size grid `smoothTerrain` returns a grid (the divisor `count` is never zero);
every smoothed cell lies between any lower and upper bound of the input cells of its in-bounds
3×3 neighbourhood, hence between their minimum and maximum; cells in `[0, MAX_HEIGHT]` stay in
`[0, MAX_HEIGHT]`; and a second pass moves a cell by at most the spread `hi - lo` of its
neighbourhood in the once-smoothed grid. -/
theorem smoothTerrain_range (g : List (List Int)) (hg : g.length = 100)
    (hrow : ∀ row ∈ g, row.length = 100) :
    ∃ g' g'' : List (List Int), smoothTerrain g = some g' ∧ smoothTerrain g' = some g'' ∧
      (∀ i j : Nat, i < 100 → j < 100 → ∃ s : Int, cellAt g' i j = some s ∧
        (neighbourhood g i j).length ≠ 0 ∧
        ∀ lo hi : Int, (∀ v ∈ neighbourhood g i j, lo ≤ v ∧ v ≤ hi) → lo ≤ s ∧ s ≤ hi) ∧
      ((∀ row ∈ g, ∀ v ∈ row, 0 ≤ v ∧ v ≤ MAX_HEIGHT) →
        ∀ row ∈ g', ∀ v ∈ row, 0 ≤ v ∧ v ≤ MAX_HEIGHT) ∧
      (∀ i j : Nat, i < 100 → j < 100 → ∀ lo hi : Int,
        (∀ v ∈ neighbourhood g' i j, lo ≤ v ∧ v ≤ hi) →
          |cellVal g'' i j - cellVal g' i j| ≤ hi - lo) := by
  have h1 := smoothTerrain_eq g hg hrow
  obtain ⟨hg', hrow'⟩ := tabulate_dims 100 100
    (fun (i j : Nat) => Int.tdiv (neighbourhood g i j).sum ((neighbourhood g i j).length : Int))
  have h2 := smoothTerrain_eq _ hg' hrow'
  refine ⟨_, _, h1, h2, ?_, ?_, ?_⟩
  · intro i j hi hj
    refine ⟨_, cellAt_tabulate 100 100 _ i j hi hj, ?_,
      fun lo hi' h => smoothed_between g i j hi hj lo hi' h⟩
    have := neighbourhood_ne_nil g i j (by omega) (by omega) (by omega) (by omega)
    exact fun h0 => this (List.length_eq_zero.mp h0)
  · intro hrange row hr v hv
    simp only [List.mem_map, List.mem_range] at hr
    obtain ⟨i, hi, rfl⟩ := hr
    simp only [List.mem_map, List.mem_range] at hv
    obtain ⟨j, hj, rfl⟩ := hv
    apply smoothed_between g i j hi hj
    intro w hw
    obtain ⟨a, b, hab, rfl⟩ := neighbourhood_mem g i j w hw
    obtain ⟨r, hr, hmem⟩ := cellVal_mem_row g hg hrow a b hab
    exact hrange r hr _ hmem
  · intro i j hi hj lo hi' hb
    have b2 := smoothed_between _ i j hi hj lo hi' hb
    have b1 := hb _ (centre_mem_neighbourhood _ i j (inGrid_of_nat i j hi hj))
    have c2 := cellAt_tabulate 100 100 (fun (a b : Nat) =>
      Int.tdiv (neighbourhood ((List.range 100).map (fun (i : Nat) => (List.range 100).map
        (fun (j : Nat) =>
          Int.tdiv (neighbourhood g i j).sum ((neighbourhood g i j).length : Int)))) a b).sum
        ((neighbourhood ((List.range 100).map (fun (i : Nat) => (List.range 100).map
        (fun (j : Nat) =>
          Int.tdiv (neighbourhood g i j).sum ((neighbourhood g i j).length : Int)))) a b).length
          : Int)) i j hi hj
    unfold cellVal at b1 ⊢
    rw [c2, Option.getD_some, abs_le]
    constructor <;> linarith [b1.1, b1.2, b2.1, b2.2]

/-- Witness for C6: two smoothing passes over the ramp grid. -/
theorem smoothTerrain_range_witness :
    rampGrid.length = 100 ∧ (∀ row ∈ rampGrid, row.length = 100) ∧
    ∃ g' g'' : List (List Int), smoothTerrain rampGrid = some g' ∧
      smoothTerrain g' = some g'' ∧
      ∃ s : Int, cellAt g' (4 : Nat) (5 : Nat) = some s ∧
        (neighbourhood rampGrid (4 : Nat) (5 : Nat)).length ≠ 0 := by
  obtain ⟨g', g'', h1, h2, h3, _, _⟩ := smoothTerrain_range rampGrid rampGrid_length rampGrid_rows
  obtain ⟨s, hs, hn, _⟩ := h3 4 5 (by decide) (by decide)
  exact ⟨rampGrid_length, rampGrid_rows, g', g'', h1, h2, s, hs, hn⟩

/-! ## Sky colour -/

section SkyLemmas

variable {α : Type} [LinearOrderedField α]

/-- C7: for every `radius > 0` and every `sunY`, with `n = (sunY + radius) / (2 radius)`:
the colour is `(0, 0, 0)` whenever `n < 0.45` and `(0.5, 0.6, 0.7)` whenever `n ≥ 0.65`; in
particular at `sunY = -radius` it is `(0, 0, 0)` and at `sunY = radius` it is
`(0.5, 0.6, 0.7)`. -/
theorem calculateSkyColor_constant_bands (sunY radius : α) (hr : 0 < radius) :
    ((sunY + radius) / (2 * radius) < 45 / 100 → calculateSkyColor sunY radius = (0, 0, 0)) ∧
    (65 / 100 ≤ (sunY + radius) / (2 * radius) →
      calculateSkyColor sunY radius = (5 / 10, 6 / 10, 7 / 10)) ∧
    calculateSkyColor (-radius) radius = (0, 0, 0) ∧
    calculateSkyColor radius radius = (5 / 10, 6 / 10, 7 / 10) := by
  have h2 : (2 : α) * radius ≠ 0 := by positivity
  refine ⟨?_, ?_, ?_, ?_⟩
  · intro h
    unfold calculateSkyColor normalizedSunY
    rw [if_pos h]
    rfl
  · intro h
    unfold calculateSkyColor normalizedSunY
    rw [if_neg (by linarith), if_neg (by linarith)]
    rfl
  · unfold calculateSkyColor normalizedSunY
    rw [neg_add_cancel, zero_div, if_pos (by norm_num)]
    rfl
  · have e : (radius + radius) / (2 * radius) = 1 := by
      rw [← two_mul]
      exact div_self h2
    unfold calculateSkyColor normalizedSunY
    rw [e, if_neg (by norm_num), if_neg (by norm_num)]
    rfl

end SkyLemmas

/-- Witness for C7: the orbital radius 64 of the source. -/
theorem calculateSkyColor_constant_bands_witness :
    (0 : ℚ) < 64 ∧ calculateSkyColor (-64 : ℚ) 64 = (0, 0, 0) ∧
    calculateSkyColor (64 : ℚ) 64 = (5 / 10, 6 / 10, 7 / 10) ∧
    ((((-10 : ℚ) + 64) / (2 * 64) < 45 / 100) → calculateSkyColor (-10 : ℚ) 64 = (0, 0, 0)) :=
  ⟨by norm_num, (calculateSkyColor_constant_bands (0 : ℚ) 64 (by norm_num)).2.2.1,
   (calculateSkyColor_constant_bands (0 : ℚ) 64 (by norm_num)).2.2.2,
   (calculateSkyColor_constant_bands (-10 : ℚ) 64 (by norm_num)).1⟩

/-- C8: when `0.45 ≤ n < 0.65` for `n = (sunY + radius) / (2 radius)`, the colour is
`night + s (noon - night)` per channel with `t = (n - 0.45) / 0.2` and `s = 3t² - 2t³`; at
`n = 0.45` this is exactly the night colour, and the band formula evaluated at `n = 0.65` is
exactly the noon colour, so the band joins both constant bands without a jump. -/
theorem calculateSkyColor_band {α : Type} [LinearOrderedField α] (sunY radius : α)
    (h1 : 45 / 100 ≤ (sunY + radius) / (2 * radius))
    (h2 : (sunY + radius) / (2 * radius) < 65 / 100) :
    calculateSkyColor sunY radius =
      (0 + (3 * (((sunY + radius) / (2 * radius) - 45 / 100) / (20 / 100)) ^ 2 -
          2 * (((sunY + radius) / (2 * radius) - 45 / 100) / (20 / 100)) ^ 3) * (5 / 10 - 0),
       0 + (3 * (((sunY + radius) / (2 * radius) - 45 / 100) / (20 / 100)) ^ 2 -
          2 * (((sunY + radius) / (2 * radius) - 45 / 100) / (20 / 100)) ^ 3) * (6 / 10 - 0),
       0 + (3 * (((sunY + radius) / (2 * radius) - 45 / 100) / (20 / 100)) ^ 2 -
          2 * (((sunY + radius) / (2 * radius) - 45 / 100) / (20 / 100)) ^ 3) * (7 / 10 - 0)) ∧
    ((sunY + radius) / (2 * radius) = 45 / 100 → calculateSkyColor sunY radius = (0, 0, 0)) ∧
    glmMix (nightColor : α × α × α) noonColor (glmSmoothstep (45 / 100) (65 / 100) (65 / 100)) =
      (5 / 10, 6 / 10, 7 / 10) := by
  have key : ∀ n : α, 45 / 100 ≤ n → n ≤ 65 / 100 →
      glmSmoothstep (45 / 100) (65 / 100) n =
        3 * ((n - 45 / 100) / (20 / 100)) ^ 2 - 2 * ((n - 45 / 100) / (20 / 100)) ^ 3 := by
    intro n a b
    have e : (65 / 100 - 45 / 100 : α) = 20 / 100 := by norm_num
    have t0 : 0 ≤ (n - 45 / 100) / (20 / 100) := div_nonneg (by linarith) (by norm_num)
    have t1 : (n - 45 / 100) / (20 / 100) ≤ 1 := by
      rw [div_le_one (by norm_num)]
      linarith
    unfold glmSmoothstep
    simp only [e, max_eq_left t0, min_eq_left t1]
    ring
  have band : calculateSkyColor sunY radius = glmMix nightColor noonColor
      (glmSmoothstep (45 / 100) (65 / 100) ((sunY + radius) / (2 * radius))) := by
    unfold calculateSkyColor normalizedSunY
    rw [if_neg (not_lt.mpr h1), if_pos h2]
  refine ⟨?_, ?_, ?_⟩
  · rw [band, key _ h1 h2.le]
    unfold glmMix nightColor noonColor
    simp only [Prod.mk.injEq]
    refine ⟨by ring, by ring, by ring⟩
  · intro h
    rw [band, key _ h1 h2.le, h]
    unfold glmMix nightColor noonColor
    simp only [Prod.mk.injEq]
    refine ⟨by norm_num, by norm_num, by norm_num⟩
  · rw [key _ (by norm_num) (le_refl _)]
    unfold glmMix nightColor noonColor
    simp only [Prod.mk.injEq]
    refine ⟨by norm_num, by norm_num, by norm_num⟩

/-- Witness for C8: radius 64 with the sun at height `-32/5`, where `n = 0.45` exactly. -/
theorem calculateSkyColor_band_witness :
    (45 / 100 : ℚ) ≤ ((-32 / 5) + 64) / (2 * 64) ∧ (((-32 / 5) + 64) / (2 * 64) : ℚ) < 65 / 100 ∧
    calculateSkyColor (-32 / 5 : ℚ) 64 = (0, 0, 0) :=
  ⟨by norm_num, by norm_num,
   (calculateSkyColor_band (-32 / 5 : ℚ) 64 (by norm_num) (by norm_num)).2.1 (by norm_num)⟩

/-! ## The exact form of the noise -/

set_option maxRecDepth 100000 in
/-- Entries `0, 1, 2` of the table built from the single exchange `(0, 1)`. -/
theorem tbl_ctor_swap01 : tbl (PerlinNoise.ctor [(0, 1)]) 0 = 1 ∧
    tbl (PerlinNoise.ctor [(0, 1)]) 1 = 0 ∧ tbl (PerlinNoise.ctor [(0, 1)]) 2 = 2 := by
  decide

/-- C10 (amended): on a valid table, with `X = ⌊x⌋ mod 256`, `Y = ⌊y⌋ mod 256`,
`fx = x - ⌊x⌋`, `fy = y - ⌊y⌋`, `noise(x, y) = (r + 1) / 2` where `r` blends along `x` first and
then along `y` the four values `grad(h, ·, ·)`, and the hash `h` handed to `grad` for a corner is
the triple-indexed entry `table[table[table[X] + Y]]` (respectively with `X + 1`, `Y + 1`);
moreover `fade t = 6t⁵ - 15t⁴ + 10t³`. -/
theorem noise_eq_triple_indexed {α : Type} [LinearOrderedField α] [FloorRing α] (p : List Int)
    (hp : ValidTable p) (x y : α) :
    PerlinNoise.noise p x y = some
      ((PerlinNoise.lerp (PerlinNoise.fade (y - (⌊y⌋ : α)))
        (PerlinNoise.lerp (PerlinNoise.fade (x - (⌊x⌋ : α)))
          (PerlinNoise.grad (tbl p (tbl p (tbl p (⌊x⌋ % 256) + ⌊y⌋ % 256)))
            (x - (⌊x⌋ : α)) (y - (⌊y⌋ : α)))
          (PerlinNoise.grad (tbl p (tbl p (tbl p (⌊x⌋ % 256 + 1) + ⌊y⌋ % 256)))
            (x - (⌊x⌋ : α) - 1) (y - (⌊y⌋ : α))))
        (PerlinNoise.lerp (PerlinNoise.fade (x - (⌊x⌋ : α)))
          (PerlinNoise.grad (tbl p (tbl p (tbl p (⌊x⌋ % 256) + (⌊y⌋ % 256 + 1))))
            (x - (⌊x⌋ : α)) (y - (⌊y⌋ : α) - 1))
          (PerlinNoise.grad (tbl p (tbl p (tbl p (⌊x⌋ % 256 + 1) + (⌊y⌋ % 256 + 1))))
            (x - (⌊x⌋ : α) - 1) (y - (⌊y⌋ : α) - 1))) + 1) / 2) ∧
    ∀ t : α, PerlinNoise.fade t = 6 * t ^ 5 - 15 * t ^ 4 + 10 * t ^ 3 := by
  refine ⟨noise_eq_some p hp x y, ?_⟩
  intro t
  unfold PerlinNoise.fade
  ring

/-- Witness for C10 (amended): the table built from the exchange `(0, 1)` at `(1/4, 0)`. -/
theorem noise_eq_triple_indexed_witness :
    ValidTable (PerlinNoise.ctor [(0, 1)]) ∧
    PerlinNoise.fade (1 / 4 : ℚ) = 6 * (1 / 4) ^ 5 - 15 * (1 / 4) ^ 4 + 10 * (1 / 4) ^ 3 :=
  ⟨ctor_valid [(0, 1)],
   (noise_eq_triple_indexed (PerlinNoise.ctor [(0, 1)]) (ctor_valid [(0, 1)]) (1 / 4 : ℚ) 0).2
     (1 / 4)⟩

/-- Counterexample to C10 as stated: on the table built from the exchange `(0, 1)`, at
`(1/4, 0)`, the code returns `715/2048` whereas the formula with the double-indexed hashes
`table[table[X] + Y]` gives `1333/2048`. -/
theorem noise_ne_double_indexed :
    PerlinNoise.noise (PerlinNoise.ctor [(0, 1)]) (1 / 4 : ℚ) 0 = some (715 / 2048) ∧
    specNoise (PerlinNoise.ctor [(0, 1)]) (1 / 4 : ℚ) 0 = 1333 / 2048 ∧
    (715 / 2048 : ℚ) ≠ 1333 / 2048 := by
  have fx : ⌊(1 / 4 : ℚ)⌋ = 0 := by rw [Int.floor_eq_iff]; norm_num
  have fy : ⌊(0 : ℚ)⌋ = 0 := Int.floor_zero
  obtain ⟨t0, t1, t2⟩ := tbl_ctor_swap01
  refine ⟨?_, ?_, by norm_num⟩
  · rw [noise_eq_some _ (ctor_valid [(0, 1)])]
    unfold noiseValue cellFormula cellFormulaOf cornerHash
    simp only [fx, fy, grad_eq_linear]
    norm_num [t0, t1, t2, gradX, gradY, PerlinNoise.lerp, PerlinNoise.fade]
  · unfold specNoise cellFormulaOf specCornerHash
    simp only [fx, fy, grad_eq_linear]
    norm_num [t0, t1, t2, gradX, gradY, PerlinNoise.lerp, PerlinNoise.fade]

/-! ## The gradient function -/

/-- C11 (amended): `grad(hash, dx, dy)` depends only on the low two bits of `hash`, and the four
values `0, 1, 2, 3` of those bits select the linear forms `dx + dy`, `-dx + dy`, `-dx + dy` and
`-dx - dy`: three pairwise different directions, the values `1` and `2` selecting the same
one. -/
theorem grad_low_bits {α : Type} [LinearOrderedField α] (hash : Int) (dx dy : α) :
    PerlinNoise.grad hash dx dy = PerlinNoise.grad (hash % 4) dx dy ∧
    (hash % 4 = 0 → PerlinNoise.grad hash dx dy = dx + dy) ∧
    (hash % 4 = 1 → PerlinNoise.grad hash dx dy = -dx + dy) ∧
    (hash % 4 = 2 → PerlinNoise.grad hash dx dy = -dx + dy) ∧
    (hash % 4 = 3 → PerlinNoise.grad hash dx dy = -dx - dy) ∧
    (hash % 4 = 0 ∨ hash % 4 = 1 ∨ hash % 4 = 2 ∨ hash % 4 = 3) := by
  refine ⟨?_, ?_, ?_, ?_, ?_, by omega⟩
  · rw [grad_eq_linear, grad_eq_linear]
    unfold gradX gradY
    rw [Int.emod_emod_of_dvd hash (dvd_refl 4)]
  all_goals
    intro h
    rw [grad_eq_linear]
    unfold gradX gradY
    rw [h]
    norm_num
  · ring

/-- Witness for C11 (amended): the hash `6`, whose low two bits are `2`. -/
theorem grad_low_bits_witness :
    (6 : Int) % 4 = 2 ∧ PerlinNoise.grad 6 (3 : ℚ) 5 = -3 + 5 :=
  ⟨by decide, (grad_low_bits 6 (3 : ℚ) 5).2.2.2.1 (by decide)⟩

/-- Counterexample to C11 as stated: the hashes `1` and `2` select the same linear form, and no
hash selects `dx - dy`. -/
theorem grad_not_four_directions :
    (∀ dx dy : ℚ, PerlinNoise.grad 1 dx dy = PerlinNoise.grad 2 dx dy) ∧
    ¬ ∃ h : Int, ∀ dx dy : ℚ, PerlinNoise.grad h dx dy = dx - dy := by
  constructor
  · intro dx dy
    rw [grad_eq_linear, grad_eq_linear]
    norm_num [gradX, gradY]
  · rintro ⟨h, hh⟩
    have h1 := hh 1 0
    have h2 := hh 0 1
    rw [grad_eq_linear] at h1 h2
    unfold gradX gradY at h1 h2
    split_ifs at h1 h2 <;> norm_num at h1 h2 <;> omega

/-! ## Lookups stay inside the table -/

/-- C12: on a valid table, for every `(x, y)` (negative coordinates included) the cell
coordinates `X = ⌊x⌋ & 255`, `Y = ⌊y⌋ & 255` lie in `[0, 255]`; every index used by `noise`
(`X`, `X + 1`, the four corner indices and the four corner hashes used as indices) lies in
`[0, 512)`, the length of the table, so each lookup succeeds without any reduction and `noise`
returns a value. -/
theorem noise_lookups_in_bounds {α : Type} [LinearOrderedField α] [FloorRing α] (p : List Int)
    (hp : ValidTable p) (x y : α) :
    (0 ≤ Int.land ⌊x⌋ 255 ∧ Int.land ⌊x⌋ 255 ≤ 255) ∧
    (0 ≤ Int.land ⌊y⌋ 255 ∧ Int.land ⌊y⌋ 255 ≤ 255) ∧
    p.length = 512 ∧
    (∀ i ∈ [Int.land ⌊x⌋ 255, Int.land ⌊x⌋ 255 + 1,
        tbl p (Int.land ⌊x⌋ 255) + Int.land ⌊y⌋ 255,
        tbl p (Int.land ⌊x⌋ 255) + Int.land ⌊y⌋ 255 + 1,
        tbl p (Int.land ⌊x⌋ 255 + 1) + Int.land ⌊y⌋ 255,
        tbl p (Int.land ⌊x⌋ 255 + 1) + Int.land ⌊y⌋ 255 + 1,
        tbl p (tbl p (Int.land ⌊x⌋ 255) + Int.land ⌊y⌋ 255),
        tbl p (tbl p (Int.land ⌊x⌋ 255) + Int.land ⌊y⌋ 255 + 1),
        tbl p (tbl p (Int.land ⌊x⌋ 255 + 1) + Int.land ⌊y⌋ 255),
        tbl p (tbl p (Int.land ⌊x⌋ 255 + 1) + Int.land ⌊y⌋ 255 + 1)],
      0 ≤ i ∧ i < 512 ∧ PerlinNoise.idx p i = some (tbl p i)) ∧
    ∃ r : α, PerlinNoise.noise p x y = some r := by
  have hX0 : 0 ≤ ⌊x⌋ % 256 := Int.emod_nonneg _ (by norm_num)
  have hX1 : ⌊x⌋ % 256 < 256 := Int.emod_lt_of_pos _ (by norm_num)
  have hY0 : 0 ≤ ⌊y⌋ % 256 := Int.emod_nonneg _ (by norm_num)
  have hY1 : ⌊y⌋ % 256 < 256 := Int.emod_lt_of_pos _ (by norm_num)
  rw [land_255, land_255]
  generalize ⌊x⌋ % 256 = X at hX0 hX1
  generalize ⌊y⌋ % 256 = Y at hY0 hY1
  have a0 := tbl_range p hp X hX0 (by omega)
  have a1 := tbl_range p hp (X + 1) (by omega) (by omega)
  have b00 := tbl_range p hp (tbl p X + Y) (by omega) (by omega)
  have b01 := tbl_range p hp (tbl p X + Y + 1) (by omega) (by omega)
  have b10 := tbl_range p hp (tbl p (X + 1) + Y) (by omega) (by omega)
  have b11 := tbl_range p hp (tbl p (X + 1) + Y + 1) (by omega) (by omega)
  refine ⟨⟨hX0, by omega⟩, ⟨hY0, by omega⟩, hp.length_eq, ?_, _, noise_eq_some p hp x y⟩
  intro i hi
  have hr : 0 ≤ i ∧ i < 512 := by
    simp only [List.mem_cons, List.mem_singleton, List.not_mem_nil, or_false] at hi
    rcases hi with h | h | h | h | h | h | h | h | h | h <;> subst h <;> omega
  exact ⟨hr.1, hr.2, idx_eq_some_tbl p hp i hr.1 hr.2⟩

/-- Witness for C12: the table built from the exchange `(0, 1)` at the negative point
`(-3/4, -1/3)`. -/
theorem noise_lookups_in_bounds_witness :
    ValidTable (PerlinNoise.ctor [(0, 1)]) ∧
    ∃ r : ℚ, PerlinNoise.noise (PerlinNoise.ctor [(0, 1)]) (-3 / 4 : ℚ) (-1 / 3) = some r :=
  ⟨ctor_valid [(0, 1)],
   (noise_lookups_in_bounds (PerlinNoise.ctor [(0, 1)]) (ctor_valid [(0, 1)]) (-3 / 4 : ℚ)
     (-1 / 3)).2.2.2.2⟩

/-! ## Lattice points -/

/-- C13: on every valid table and at every pair of integers `(i, j)`, `noise(i, j)` is exactly
`1/2`: both fractional offsets are `0`, the gradient dot product of the contributing corner is
`0` whatever its hash, so the value does not depend on the table; hence `noise` is also
256-periodic on the lattice. -/
theorem noise_lattice {α : Type} [LinearOrderedField α] [FloorRing α] (p : List Int)
    (hp : ValidTable p) (i j : Int) :
    PerlinNoise.noise p (i : α) (j : α) = some (1 / 2) ∧
    ((i : α) - (⌊(i : α)⌋ : α) = 0 ∧ (j : α) - (⌊(j : α)⌋ : α) = 0) ∧
    (∀ h : Int, PerlinNoise.grad h (0 : α) 0 = 0) ∧
    PerlinNoise.noise p ((i + 256 : Int) : α) (j : α) = PerlinNoise.noise p (i : α) (j : α) ∧
    PerlinNoise.noise p (i : α) ((j + 256 : Int) : α) = PerlinNoise.noise p (i : α) (j : α) := by
  have hg : ∀ h : Int, PerlinNoise.grad h (0 : α) 0 = 0 := by
    intro h
    rw [grad_eq_linear]
    ring
  have key : ∀ a b : Int, PerlinNoise.noise p (a : α) (b : α) = some (1 / 2) := by
    intro a b
    rw [noise_eq_some p hp]
    unfold noiseValue cellFormula cellFormulaOf
    simp only [Int.floor_intCast, sub_self, hg]
    norm_num [PerlinNoise.fade, PerlinNoise.lerp]
  refine ⟨key i j, ⟨by simp, by simp⟩, hg, ?_, ?_⟩
  · rw [key, key]
  · rw [key, key]

/-- Witness for C13: the table built from the exchange `(0, 1)` at the lattice point
`(3, -7)`. -/
theorem noise_lattice_witness :
    ValidTable (PerlinNoise.ctor [(0, 1)]) ∧
    PerlinNoise.noise (PerlinNoise.ctor [(0, 1)]) (((3 : Int) : ℚ)) (((-7 : Int) : ℚ)) =
      some (1 / 2) :=
  ⟨ctor_valid [(0, 1)],
   (noise_lattice (α := ℚ) (PerlinNoise.ctor [(0, 1)]) (ctor_valid [(0, 1)]) 3 (-7)).1⟩

/-! ## Continuity of the noise -/

section Boundary

variable {α : Type} [LinearOrderedField α]

theorem fade_zero : PerlinNoise.fade (0 : α) = 0 := by
  unfold PerlinNoise.fade; ring

theorem fade_one : PerlinNoise.fade (1 : α) = 1 := by
  unfold PerlinNoise.fade; ring

/-- Right edge of a cell against the left edge of the next cell, for any corner hashes. -/
theorem cellFormulaOf_edge_x (hash : Int → Int → Int) (X Y : Int) (t : α) :
    cellFormulaOf hash X Y 1 t = cellFormulaOf hash (X + 1) Y 0 t := by
  unfold cellFormulaOf PerlinNoise.lerp
  rw [fade_zero, fade_one]
  simp only [sub_self]
  ring

/-- Upper edge of a cell against the lower edge of the cell above, for any corner hashes. -/
theorem cellFormulaOf_edge_y (hash : Int → Int → Int) (X Y : Int) (t : α) :
    cellFormulaOf hash X Y t 1 = cellFormulaOf hash X (Y + 1) t 0 := by
  unfold cellFormulaOf PerlinNoise.lerp
  rw [fade_zero, fade_one]
  simp only [sub_self]
  ring

end Boundary

/-- Through the doubled table the index `X + 1 = 256` reads the entry of index `0`. -/
theorem tbl_succ_wrap (p : List Int) (hp : ValidTable p) (X : Int) (h0 : 0 ≤ X) (h1 : X ≤ 255) :
    tbl p (X + 1) = tbl p ((X + 1) % 256) := by
  by_cases h : X = 255
  · subst h
    have := tbl_dup p hp 0 (by norm_num) (by norm_num)
    simpa using this
  · have e : (X + 1) % 256 = X + 1 := by omega
    rw [e]

/-- Through the doubled table the offset `Y + 1 = 256` reads the same entry as the offset `0`. -/
theorem tbl_add_wrap (p : List Int) (hp : ValidTable p) (a Y : Int) (ha0 : 0 ≤ a)
    (ha1 : a ≤ 255) (h0 : 0 ≤ Y) (h1 : Y ≤ 255) :
    tbl p (a + (Y + 1)) = tbl p (a + (Y + 1) % 256) := by
  by_cases h : Y = 255
  · subst h
    have := tbl_dup p hp a ha0 (by omega)
    simpa using this
  · have e : (Y + 1) % 256 = Y + 1 := by omega
    rw [e]

/-- The corner hash of the code depends on the lattice point only through its residues modulo
256, also at the indices `X + 1 = 256` and `Y + 1 = 256` served by the second half of the
table. -/
theorem cornerHash_wrap (p : List Int) (hp : ValidTable p) (m n a b : Int)
    (ha : a = 0 ∨ a = 1) (hb : b = 0 ∨ b = 1) :
    cornerHash p (m % 256 + a) (n % 256 + b) = cornerHash p ((m + a) % 256) ((n + b) % 256) := by
  have hX0 : 0 ≤ m % 256 := Int.emod_nonneg _ (by norm_num)
  have hX1 : m % 256 < 256 := Int.emod_lt_of_pos _ (by norm_num)
  have hY0 : 0 ≤ n % 256 := Int.emod_nonneg _ (by norm_num)
  have hY1 : n % 256 < 256 := Int.emod_lt_of_pos _ (by norm_num)
  have em : (m + 1) % 256 = (m % 256 + 1) % 256 := by omega
  have en : (n + 1) % 256 = (n % 256 + 1) % 256 := by omega
  have r0 := tbl_range p hp (m % 256) hX0 (by omega)
  have r1 := tbl_range p hp ((m % 256 + 1) % 256) (by omega) (by omega)
  unfold cornerHash
  rcases ha with rfl | rfl <;> rcases hb with rfl | rfl
  · simp only [add_zero]
  · simp only [add_zero, en]
    rw [tbl_add_wrap p hp _ _ r0.1 r0.2 hY0 (by omega)]
  · simp only [add_zero, em]
    rw [tbl_succ_wrap p hp _ hX0 (by omega)]
  · simp only [em, en]
    rw [tbl_succ_wrap p hp _ hX0 (by omega), tbl_add_wrap p hp _ _ r1.1 r1.2 hY0 (by omega)]

/-- The unit squares with integer corners form a locally finite family in the plane. -/
theorem unitSquares_locallyFinite :
    LocallyFinite (fun c : Int × Int =>
      (Set.Icc (c.1 : ℝ) (c.1 + 1) ×ˢ Set.Icc (c.2 : ℝ) (c.2 + 1) : Set (ℝ × ℝ))) := by
  intro q
  refine ⟨Set.Ioo (q.1 - 1) (q.1 + 1) ×ˢ Set.Ioo (q.2 - 1) (q.2 + 1), ?_, ?_⟩
  · exact prod_mem_nhds (Ioo_mem_nhds (by linarith) (by linarith))
      (Ioo_mem_nhds (by linarith) (by linarith))
  · apply Set.Finite.subset
      (Set.toFinite (Set.Icc (⌊q.1⌋ - 2) (⌊q.1⌋ + 1) ×ˢ Set.Icc (⌊q.2⌋ - 2) (⌊q.2⌋ + 1)))
    rintro ⟨m, n⟩ ⟨⟨a, b⟩, ⟨⟨ha1, ha2⟩, ⟨hb1, hb2⟩⟩, ⟨⟨ha3, ha4⟩, ⟨hb3, hb4⟩⟩⟩
    simp only at ha1 ha2 hb1 hb2 ha3 ha4 hb3 hb4
    have fx1 := Int.floor_le q.1
    have fx2 := Int.lt_floor_add_one q.1
    have fy1 := Int.floor_le q.2
    have fy2 := Int.lt_floor_add_one q.2
    have m1 : ((⌊q.1⌋ - 2 : Int) : ℝ) < (m : ℝ) + 1 := by push_cast; linarith
    have m2 : (m : ℝ) < ((⌊q.1⌋ + 2 : Int) : ℝ) := by push_cast; linarith
    have n1 : ((⌊q.2⌋ - 2 : Int) : ℝ) < (n : ℝ) + 1 := by push_cast; linarith
    have n2 : (n : ℝ) < ((⌊q.2⌋ + 2 : Int) : ℝ) := by push_cast; linarith
    have m1' : ⌊q.1⌋ - 2 < m + 1 := by exact_mod_cast m1
    have m2' : m < ⌊q.1⌋ + 2 := by exact_mod_cast m2
    have n1' : ⌊q.2⌋ - 2 < n + 1 := by exact_mod_cast n1
    have n2' : n < ⌊q.2⌋ + 2 := by exact_mod_cast n2
    simp only [Set.mem_prod, Set.mem_Icc]
    omega

/-- Inside one cell the blend is a polynomial in the offsets, hence continuous. -/
theorem cellFormulaOf_continuous (hash : Int → Int → Int) (m n : Int) :
    Continuous (fun q : ℝ × ℝ => cellFormulaOf hash m n (q.1 - m) (q.2 - n)) := by
  unfold cellFormulaOf PerlinNoise.lerp PerlinNoise.fade
  simp only [grad_eq_linear]
  fun_prop

/-- The value of the cell containing `q` at its offsets agrees, on the whole closed unit square
`[m, m + 1] × [n, n + 1]`, with the formula of the cell `(m, n)`. -/
theorem cellFormulaOf_floor_eq (hash : Int → Int → Int) (m n : Int) (q : ℝ × ℝ)
    (hq : q ∈ (Set.Icc (m : ℝ) (m + 1) ×ˢ Set.Icc (n : ℝ) (n + 1) : Set (ℝ × ℝ))) :
    cellFormulaOf hash ⌊q.1⌋ ⌊q.2⌋ (q.1 - (⌊q.1⌋ : ℝ)) (q.2 - (⌊q.2⌋ : ℝ)) =
      cellFormulaOf hash m n (q.1 - m) (q.2 - n) := by
  obtain ⟨⟨hx0, hx1⟩, ⟨hy0, hy1⟩⟩ := hq
  have cx : (⌊q.1⌋ = m) ∨ (⌊q.1⌋ = m + 1 ∧ q.1 = (m : ℝ) + 1) := by
    rcases hx1.lt_or_eq with h | h
    · left
      rw [Int.floor_eq_iff]
      exact ⟨hx0, h⟩
    · right
      refine ⟨?_, h⟩
      rw [h]
      exact_mod_cast Int.floor_intCast (m + 1)
  have cy : (⌊q.2⌋ = n) ∨ (⌊q.2⌋ = n + 1 ∧ q.2 = (n : ℝ) + 1) := by
    rcases hy1.lt_or_eq with h | h
    · left
      rw [Int.floor_eq_iff]
      exact ⟨hy0, h⟩
    · right
      refine ⟨?_, h⟩
      rw [h]
      exact_mod_cast Int.floor_intCast (n + 1)
  rcases cx with ex | ⟨ex, ex'⟩ <;> rcases cy with ey | ⟨ey, ey'⟩
  · rw [ex, ey]
  · rw [ex, ey, ey']
    push_cast
    rw [show (n : ℝ) + 1 - (↑n + 1) = 0 by ring, show (n : ℝ) + 1 - n = 1 by ring]
    exact (cellFormulaOf_edge_y hash m n _).symm
  · rw [ex, ey, ex']
    push_cast
    rw [show (m : ℝ) + 1 - (↑m + 1) = 0 by ring, show (m : ℝ) + 1 - m = 1 by ring]
    exact (cellFormulaOf_edge_x hash m n _).symm
  · rw [ex, ey, ex', ey']
    push_cast
    rw [show (m : ℝ) + 1 - (↑m + 1) = 0 by ring, show (m : ℝ) + 1 - m = 1 by ring,
      show (n : ℝ) + 1 - (↑n + 1) = 0 by ring, show (n : ℝ) + 1 - n = 1 by ring]
    rw [cellFormulaOf_edge_x hash m n 1, cellFormulaOf_edge_y hash (m + 1) n 0]

/-- The blend of the cell containing the point, as a function on the plane, is continuous,
whatever the corner hashes are. -/
theorem cellFormulaOf_floor_continuous (hash : Int → Int → Int) :
    Continuous (fun q : ℝ × ℝ =>
      cellFormulaOf hash ⌊q.1⌋ ⌊q.2⌋ (q.1 - (⌊q.1⌋ : ℝ)) (q.2 - (⌊q.2⌋ : ℝ))) := by
  refine LocallyFinite.continuous unitSquares_locallyFinite ?_ ?_ ?_
  · apply Set.eq_univ_of_forall
    intro q
    simp only [Set.mem_iUnion, Set.mem_prod, Set.mem_Icc]
    exact ⟨(⌊q.1⌋, ⌊q.2⌋), ⟨Int.floor_le _, (Int.lt_floor_add_one _).le⟩,
      ⟨Int.floor_le _, (Int.lt_floor_add_one _).le⟩⟩
  · intro c
    exact isClosed_Icc.prod isClosed_Icc
  · intro c
    exact (cellFormulaOf_continuous hash c.1 c.2).continuousOn.congr
      (fun q hq => cellFormulaOf_floor_eq hash c.1 c.2 q hq)

/-- The cell formula of the code at the wrapped cell of `(m, n)` is the blend for the
256-periodic hash field. -/
theorem cellFormula_eq_periodic {α : Type} [LinearOrderedField α] (p : List Int)
    (hp : ValidTable p) (m n : Int) (fx fy : α) :
    cellFormula p (m % 256) (n % 256) fx fy =
      cellFormulaOf (fun a b => cornerHash p (a % 256) (b % 256)) m n fx fy := by
  have h00 := cornerHash_wrap p hp m n 0 0 (Or.inl rfl) (Or.inl rfl)
  have h10 := cornerHash_wrap p hp m n 1 0 (Or.inr rfl) (Or.inl rfl)
  have h01 := cornerHash_wrap p hp m n 0 1 (Or.inl rfl) (Or.inr rfl)
  have h11 := cornerHash_wrap p hp m n 1 1 (Or.inr rfl) (Or.inr rfl)
  simp only [add_zero] at h00 h10 h01 h11
  unfold cellFormula cellFormulaOf
  simp only [h10, h01, h11]

/-- C9: on a valid table `noise` is a continuous function of `(x, y)` on the whole plane: it
returns at every point the value of one continuous function.  Its value is the cell formula of
the wrapped cell at the fractional offsets, and across every cell boundary the two one-sided
formulas agree: the formula of cell `(X, Y)` at `fx = 1` equals that of cell
`((X + 1) mod 256, Y)` at `fx = 0`, likewise in the `y` direction, the wrap from cell 255 to
cell 0 included. -/
theorem noise_continuous (p : List Int) (hp : ValidTable p) :
    (∃ f : ℝ × ℝ → ℝ, Continuous f ∧
      ∀ x y : ℝ, PerlinNoise.noise p x y = some (f (x, y))) ∧
    (∀ x y : ℝ, PerlinNoise.noise p x y = some
      ((cellFormula p (⌊x⌋ % 256) (⌊y⌋ % 256) (x - (⌊x⌋ : ℝ)) (y - (⌊y⌋ : ℝ)) + 1) / 2)) ∧
    (∀ X Y : Int, 0 ≤ X → X ≤ 255 → 0 ≤ Y → Y ≤ 255 → ∀ t : ℝ,
      cellFormula p X Y 1 t = cellFormula p ((X + 1) % 256) Y 0 t ∧
      cellFormula p X Y t 1 = cellFormula p X ((Y + 1) % 256) t 0) := by
  refine ⟨⟨fun q => (cellFormulaOf (fun a b => cornerHash p (a % 256) (b % 256)) ⌊q.1⌋ ⌊q.2⌋
      (q.1 - (⌊q.1⌋ : ℝ)) (q.2 - (⌊q.2⌋ : ℝ)) + 1) / 2, ?_, ?_⟩, noise_eq_some p hp, ?_⟩
  · exact ((cellFormulaOf_floor_continuous _).add continuous_const).div_const 2
  · intro x y
    rw [noise_eq_some p hp]
    unfold noiseValue
    rw [cellFormula_eq_periodic p hp]
  · intro X Y hX0 hX1 hY0 hY1 t
    have r0 := tbl_range p hp X hX0 (by omega)
    have r1 := tbl_range p hp (X + 1) (by omega) (by omega)
    constructor
    · unfold cellFormula
      rw [cellFormulaOf_edge_x]
      unfold cellFormulaOf cornerHash
      rw [← tbl_succ_wrap p hp X hX0 hX1, fade_zero]
      simp only [PerlinNoise.lerp]
      ring
    · unfold cellFormula
      rw [cellFormulaOf_edge_y]
      unfold cellFormulaOf cornerHash
      rw [tbl_add_wrap p hp _ Y r0.1 r0.2 hY0 hY1, tbl_add_wrap p hp _ Y r1.1 r1.2 hY0 hY1]
      rw [fade_zero]
      simp only [PerlinNoise.lerp]
      ring

/-- Witness for C9: the table built from the exchange `(0, 1)`; the wrap from cell 255 to cell
0 in the `x` direction. -/
theorem noise_continuous_witness :
    ValidTable (PerlinNoise.ctor [(0, 1)]) ∧
    cellFormula (PerlinNoise.ctor [(0, 1)]) 255 7 (1 : ℝ) (1 / 2) =
      cellFormula (PerlinNoise.ctor [(0, 1)]) ((255 + 1) % 256) 7 (0 : ℝ) (1 / 2) :=
  ⟨ctor_valid [(0, 1)],
   ((noise_continuous (PerlinNoise.ctor [(0, 1)]) (ctor_valid [(0, 1)])).2.2 255 7 (by decide)
     (by decide) (by decide) (by decide) (1 / 2)).1⟩
